import Mathlib

/-!
Shallow embedding of `throughputbuffer` (Jille/throughputbuffer, `tpb.go` and the
vectored-write file) for verification.

Bytes are modelled as `Nat`.  The pool's memory is modelled explicitly so that
aliasing between cloned buffers is real: `Mem.blocks` is the store of fixed-size
backing blocks handed out by the pool (`sync.Pool.Get`), `Mem.refs` is the store
of shared reference-count cells (`*int32` refcnt pointers), and `Mem.freed`
records, in order, the block indices returned to the pool (`pool.Put`).
Acquisition is modelled as allocating a fresh block at the end of the store
(`make([]byte, blocksize)`); `sync.Pool` is a cache, so a run in which every
`Get` misses and allocates fresh is one of its legal behaviours.

A Go `dataChunk` holds `data` (the unread byte slice within the backing block),
`poolEntry` (the backing block, needed to return it), and `refcnt`.  Here a
chunk holds the block index `blk` (standing for `poolEntry`), the start `off`
and length `len` of the unread range (so `data = block[off : off+len]` and
`cap(data) = |block| - off`), and `ref`, the optional index of its refcount
cell.
-/

structure DataChunk where
  blk : Nat
  off : Nat
  len : Nat
  ref : Option Nat
  deriving Repr, DecidableEq

structure Mem where
  blocks : List (List Nat)
  refs : List Nat
  freed : List Nat
  deriving Repr, DecidableEq

/-- The unread bytes of a chunk: `data = block[off : off+len]`. -/
def chunkView (m : Mem) (c : DataChunk) : List Nat :=
  ((m.blocks.getD c.blk []).drop c.off).take c.len

/-- The logical byte content of a buffer: concatenation of the chunks' unread bytes. -/
def contents (m : Mem) (bufs : List DataChunk) : List Nat :=
  (bufs.map (chunkView m)).flatten

/-- Buffer.Len: sum over the chunks of `len(buf.data)`. -/
def bufLen (bufs : List DataChunk) : Nat :=
  (bufs.map (·.len)).sum

/-- The writability refcount test from Write/WriteString/ReadFrom:
`buf.refcnt == nil || atomic.LoadInt32(buf.refcnt) == 1`. -/
def refOK (m : Mem) (c : DataChunk) : Bool :=
  match c.ref with
  | none => true
  | some i => m.refs.getD i 0 == 1

/-- The capacity test from Write/WriteString/ReadFrom: `len(buf.data) < cap(buf.data)`,
i.e. `off + len < |block|`, conjoined with the refcount test. -/
def writableB (m : Mem) (c : DataChunk) : Bool :=
  decide (c.off + c.len < (m.blocks.getD c.blk []).length) && refOK m c

/-- BufferPool.newDataChunk: acquire a fresh zeroed block of `bs` bytes from the pool
and wrap it in a chunk with empty `data` and no refcount. -/
def newDataChunk (bs : Nat) (m : Mem) : Mem × DataChunk :=
  ({ m with blocks := m.blocks ++ [List.replicate bs 0] },
   { blk := m.blocks.length, off := 0, len := 0, ref := none })

/-- Overwrite the bytes of `l` starting at position `pos` with `q` (length preserved
when `pos + |q| ≤ |l|`); this is what `copy(target, p)` does to the backing block. -/
def spliceAt (l : List Nat) (pos : Nat) (q : List Nat) : List Nat :=
  l.take pos ++ q ++ l.drop (pos + q.length)

/-- Copy `q` into the free region of chunk `c` (its backing block at positions
`[off+len, off+len+|q|)`), as `copy(buf.data[len:cap], ...)` does. -/
def appendBytes (m : Mem) (c : DataChunk) (q : List Nat) : Mem :=
  { m with blocks := m.blocks.set c.blk (spliceAt (m.blocks.getD c.blk []) (c.off + c.len) q) }

/-- Buffer.returnDataChunk: if the chunk has a refcount, atomically decrement it and
stop if other owners remain; otherwise return the backing block to the pool. -/
def returnDataChunk (m : Mem) (c : DataChunk) : Mem :=
  match c.ref with
  | some i =>
      let v := m.refs.getD i 0 - 1
      let m1 : Mem := { m with refs := m.refs.set i v }
      if 0 < v then m1 else { m1 with freed := m1.freed ++ [c.blk] }
  | none => { m with freed := m.freed ++ [c.blk] }

/-- Buffer.dropConsumed: release whole chunks covered by the first `n` consumed bytes
and trim the first surviving chunk.  The Go code indexes `b.buffers[0]` and callers
guarantee `n ≤ bufLen`; on an empty list the model returns the state unchanged. -/
def dropConsumed (m : Mem) (n : Nat) : List DataChunk → Mem × List DataChunk
  | [] => (m, [])
  | c :: rest =>
      if c.len ≤ n then
        let m1 := returnDataChunk m c
        if n - c.len = 0 then (m1, rest)
        else dropConsumed m1 (n - c.len) rest
      else (m, { c with off := c.off + n, len := c.len - n } :: rest)

structure ReadRes where
  m : Mem
  bufs : List DataChunk
  out : List Nat
  cnt : Nat
  eof : Bool
  deriving Repr, DecidableEq

/-- Buffer.Read with a destination of length `k`: repeatedly copy from the front
chunk (`n = copy(p[ret:], b.buffers[0].data)`, so `n = min k c.len`), drop the
consumed bytes, and stop with a nil error as soon as the destination is full,
or with io.EOF (`eof = true`) when the chunk list runs out first.  `out` is the
byte content written into the destination and `cnt` the returned count. -/
def bufRead (m : Mem) : List DataChunk → Nat → ReadRes
  | [], _ => ⟨m, [], [], 0, true⟩
  | c :: rest, k =>
      if c.len ≤ k then
        -- the whole front chunk is copied; dropConsumed releases it
        let m1 := returnDataChunk m c
        if k = c.len then ⟨m1, rest, chunkView m c, c.len, false⟩
        else
          let r := bufRead m1 rest (k - c.len)
          ⟨r.m, r.bufs, chunkView m c ++ r.out, c.len + r.cnt, r.eof⟩
      else
        -- n = k < len(data): dropConsumed trims the front chunk
        (⟨m, { c with off := c.off + k, len := c.len - k } :: rest,
          (chunkView m c).take k, k, false⟩ : ReadRes)

/-- One iteration state of the append loop shared by Write/WriteString/ReadFrom:
the buffer's chunk list is `front ++ [tl]`, `tl` being the tail chunk.
`writeLoop` is Buffer.Write's loop: while input remains, copy into the tail
chunk if it has free capacity and is exclusively owned, otherwise acquire a new
tail chunk from the pool.  The loop is fuelled: each iteration either consumes
at least one input byte (a fresh chunk has free capacity whenever the pool's
block size is positive) or appends one chunk, so `2*|p| + 1` fuel reproduces
the Go loop exactly whenever `0 < bs`; with block size 0 the Go loop would
spin forever acquiring empty chunks. -/
def writeLoop (bs : Nat) : Nat → Mem → List DataChunk → DataChunk → List Nat → Mem × List DataChunk
  | _, m, front, tl, [] => (m, front ++ [tl])
  | 0, m, front, tl, _ :: _ => (m, front ++ [tl])
  | fuel + 1, m, front, tl, p@(_ :: _) =>
      if writableB m tl then
        let free := (m.blocks.getD tl.blk []).length - tl.off - tl.len
        let n := min p.length free
        let m1 := appendBytes m tl (p.take n)
        writeLoop bs fuel m1 front { tl with len := tl.len + n } (p.drop n)
      else
        let (m1, c) := newDataChunk bs m
        writeLoop bs fuel m1 (front ++ [tl]) c p

/-- Buffer.Write: ensure there is a tail chunk, run the append loop, and return
`(len(p), nil)` — the returned count is literally `len(p)` and the error is
literally nil in the source. -/
def bufWrite (bs : Nat) (m : Mem) (bufs : List DataChunk) (p : List Nat) :
    (Mem × List DataChunk) × Nat × Option Nat :=
  let st :=
    match bufs.getLast? with
    | none =>
        let (m1, c) := newDataChunk bs m
        writeLoop bs (2 * p.length + 1) m1 [] c p
    | some tl => writeLoop bs (2 * p.length + 1) m bufs.dropLast tl p
  (st, p.length, none)

/-- Buffer.WriteString: the Go source duplicates Buffer.Write's body verbatim for a
string argument; the model duplicates it the same way (a string is a byte list). -/
def writeStringLoop (bs : Nat) : Nat → Mem → List DataChunk → DataChunk → List Nat → Mem × List DataChunk
  | _, m, front, tl, [] => (m, front ++ [tl])
  | 0, m, front, tl, _ :: _ => (m, front ++ [tl])
  | fuel + 1, m, front, tl, p@(_ :: _) =>
      if writableB m tl then
        let free := (m.blocks.getD tl.blk []).length - tl.off - tl.len
        let n := min p.length free
        let m1 := appendBytes m tl (p.take n)
        writeStringLoop bs fuel m1 front { tl with len := tl.len + n } (p.drop n)
      else
        let (m1, c) := newDataChunk bs m
        writeStringLoop bs fuel m1 (front ++ [tl]) c p

def bufWriteString (bs : Nat) (m : Mem) (bufs : List DataChunk) (p : List Nat) :
    (Mem × List DataChunk) × Nat × Option Nat :=
  let st :=
    match bufs.getLast? with
    | none =>
        let (m1, c) := newDataChunk bs m
        writeStringLoop bs (2 * p.length + 1) m1 [] c p
    | some tl => writeStringLoop bs (2 * p.length + 1) m bufs.dropLast tl p
  (st, p.length, none)

/-- Errors an external `io.Reader` can report: `io.EOF` or any other failure
(abstracted by a numeric code). -/
inductive RdErr where
  | eof
  | fail (k : Nat)
  deriving Repr, DecidableEq

/-- A scripted external source for Buffer.ReadFrom: the i-th `r.Read(target)` call
returns the i-th entry's bytes (truncated to the target's free length) together
with its reported error. -/
abbrev RdScript := List (List Nat × Option RdErr)

/-- Buffer.ReadFrom's loop: ensure a writable tail chunk (acquiring a new one when
the tail is full or shared — with `0 < bs` one acquisition always suffices, which
is how the Go `for` is reproduced here), read from the source directly into the
tail's free capacity, extend `data` by the returned count, and stop when the
source reports io.EOF (returning the accumulated count and a nil error) or any
other error (returning the accumulated count and that error unchanged).
A script without a terminal error corresponds to a Go call that has not returned
yet; the model then reports the bytes ingested so far with a nil error. -/
def readFromLoop (bs : Nat) (m : Mem) (front : List DataChunk) (tl : DataChunk) :
    RdScript → Nat → (Mem × List DataChunk) × Nat × Option Nat
  | [], acc => ((m, front ++ [tl]), acc, none)
  | (d, e) :: rest, acc =>
      let (m0, front0, tl0) :=
        if writableB m tl then (m, front, tl)
        else
          let (m1, c) := newDataChunk bs m
          (m1, front ++ [tl], c)
      let free := (m0.blocks.getD tl0.blk []).length - tl0.off - tl0.len
      let n := min d.length free
      let m2 := appendBytes m0 tl0 (d.take n)
      let tl2 := { tl0 with len := tl0.len + n }
      match e with
      | some RdErr.eof => ((m2, front0 ++ [tl2]), acc + n, none)
      | some (RdErr.fail k) => ((m2, front0 ++ [tl2]), acc + n, some k)
      | none => readFromLoop bs m2 front0 tl2 rest (acc + n)

/-- Buffer.ReadFrom: ensure there is a tail chunk, then run the ingestion loop. -/
def bufReadFrom (bs : Nat) (m : Mem) (bufs : List DataChunk) (script : RdScript) :
    (Mem × List DataChunk) × Nat × Option Nat :=
  match bufs.getLast? with
  | none =>
      let (m1, c) := newDataChunk bs m
      readFromLoop bs m1 [] c script 0
  | some tl => readFromLoop bs m bufs.dropLast tl script 0

/-- A scripted external sink for Buffer.WriteTo's per-chunk path: the i-th
`w.Write(data)` call accepts `min accept |data|` bytes and reports the i-th
entry's error. -/
abbrev WrScript := List (Nat × Option Nat)

/-- Buffer.WriteTo's per-chunk loop: while chunks remain, write the front chunk's
`data` to the sink, drop the accepted bytes (releasing fully-consumed chunks,
trimming a partially-consumed one), add them to the running count, and return
that count with the sink's error as soon as the sink reports one.  The last
component counts the sink calls made.  An exhausted script corresponds to a Go
call still in its loop; the model then stops with a nil error. -/
def writeToLoop (m : Mem) : List DataChunk → WrScript → Nat →
    Mem × List DataChunk × Nat × Option Nat × Nat
  | [], _, acc => (m, [], acc, none, 0)
  | c :: rest, [], acc => (m, c :: rest, acc, none, 0)
  | c :: rest, (a, e) :: srest, acc =>
      let n := min c.len a
      let (m1, b1) := dropConsumed m n (c :: rest)
      match e with
      | some k => (m1, b1, acc + n, some k, 1)
      | none =>
          let (m2, b2, acc2, e2, cnt) := writeToLoop m1 b1 srest (acc + n)
          (m2, b2, acc2, e2, cnt + 1)

/-- Errors `unix.Writev` can report: the transient EINTR/EAGAIN conditions that
`tryToWritev` clears and retries, or a real failure (numeric code). -/
inductive WvErr where
  | eintr
  | eagain
  | fail (k : Nat)
  deriving Repr, DecidableEq

/-- A scripted vectored sink: the i-th `unix.Writev` call writes `min n (bufLen)`
bytes and reports the i-th entry's error. -/
abbrev WvScript := List (Nat × Option WvErr)

/-- One `rc.Write(f)` call from `tryToWritev`: the runtime invokes the callback
(each invocation is one `unix.Writev`, i.e. one script entry) until it reports
done — which the callback does when the buffer is empty or a non-transient
writev error occurred.  Returns the state, the accumulated count, the final
`writevErr` (with EINTR/EAGAIN already cleared to nil), and the unconsumed
script.  `rc.Write` itself reports only poller-level failures, modelled as
always nil. -/
def rcWrite (m : Mem) (bufs : List DataChunk) : WvScript → Nat →
    Mem × List DataChunk × Nat × Option Nat × WvScript
  | [], acc => (m, bufs, acc, none, [])
  | (n0, e) :: rest, acc =>
      let n := min n0 (bufLen bufs)
      let (m1, b1) := if 0 < n then dropConsumed m n bufs else (m, bufs)
      let we : Option Nat :=
        match e with
        | some (WvErr.fail k) => some k
        | _ => none
      if b1.isEmpty || we.isSome then (m1, b1, acc + n, we, rest)
      else rcWrite m1 b1 rest (acc + n)

/-- The outer loop of `tryToWritev`: while more than one chunk is queued, issue a
batched write through `rc.Write`.  When the writev callback ended with a real
error (`writevErr != nil`), the source executes `return ret, err` — `err` being
`rc.Write`'s own (nil) error, not `writevErr` — so the returned error here is
`none` and the writev failure is dropped.  Fuelled by the script length, which
bounds the number of callback invocations. -/
def writevOuter : Nat → Mem → List DataChunk → WvScript → Nat →
    (Mem × List DataChunk) × Nat × Option Nat
  | 0, m, bufs, _, acc => ((m, bufs), acc, none)
  | _ + 1, m, bufs, [], acc => ((m, bufs), acc, none)
  | fuel + 1, m, bufs, script@(_ :: _), acc =>
      if bufs.length ≤ 1 then ((m, bufs), acc, none)
      else
        let (m1, b1, acc1, we, rest) := rcWrite m bufs script acc
        if we.isSome then ((m1, b1), acc1, none)
        else writevOuter fuel m1 b1 rest acc1

/-- Buffer.tryToWritev: a no-op returning `(0, nil)` when the sink is not a
`syscall.Conn` (`wv = none`) or at most one chunk is queued; otherwise the
batched-write loop. -/
def tryToWritev (m : Mem) (bufs : List DataChunk) (wv : Option WvScript) :
    (Mem × List DataChunk) × Nat × Option Nat :=
  match wv with
  | none => ((m, bufs), 0, none)
  | some script => writevOuter (script.length + 1) m bufs script 0

/-- Buffer.WriteTo: first the vectored fast path, whose error (if any) is returned
at once; then the per-chunk loop on the remainder.  The last component counts
the per-chunk sink calls. -/
def bufWriteTo (m : Mem) (bufs : List DataChunk) (wv : Option WvScript) (script : WrScript) :
    (Mem × List DataChunk) × (Nat × Option Nat) × Nat :=
  let ((m1, b1), n1, e1) := tryToWritev m bufs wv
  match e1 with
  | some k => ((m1, b1), (n1, some k), 0)
  | none =>
      let (m2, b2, acc, e, cnt) := writeToLoop m1 b1 script n1
      ((m2, b2), (acc, e), cnt)

/-- Buffer.Bytes: copy every chunk's unread bytes into one contiguous slice in
order, releasing each chunk, and empty the chunk list.  Releasing never touches
block contents, so copying the views of the original state is exact. -/
def bufBytes (m : Mem) (bufs : List DataChunk) : (Mem × List DataChunk) × List Nat :=
  ((bufs.foldl returnDataChunk m, []), contents m bufs)

/-- Buffer.Reset: release every chunk and empty the chunk list. -/
def bufReset (m : Mem) (bufs : List DataChunk) : Mem × List DataChunk :=
  (bufs.foldl returnDataChunk m, [])

/-- Buffer.Clone's per-chunk pass: a chunk without a refcount cell gets a fresh
cell initialised to 2; a chunk with one has it atomically incremented.  The Go
code mutates `b.buffers[i].refcnt` in place and then copies the slice, so the
original and the clone end up with the *same* chunk list, returned here once. -/
def cloneChunks (m : Mem) : List DataChunk → Mem × List DataChunk
  | [] => (m, [])
  | c :: rest =>
      match c.ref with
      | none =>
          let i := m.refs.length
          let m1 : Mem := { m with refs := m.refs ++ [2] }
          let (m2, cs) := cloneChunks m1 rest
          (m2, { c with ref := some i } :: cs)
      | some i =>
          let m1 : Mem := { m with refs := m.refs.set i (m.refs.getD i 0 + 1) }
          let (m2, cs) := cloneChunks m1 rest
          (m2, c :: cs)

/-- Buffer.Clone: after the per-chunk pass both the original and the clone hold
the resulting chunk list. -/
def bufClone (m : Mem) (bufs : List DataChunk) : Mem × List DataChunk × List DataChunk :=
  let (m1, l) := cloneChunks m bufs
  (m1, l, l)

/-- Well-formedness of one chunk against the store: its block exists and has the
pool's block size, its unread range lies inside the block, and its refcount
cell (if any) exists. -/
def chunkWF (bs : Nat) (m : Mem) (c : DataChunk) : Prop :=
  c.blk < m.blocks.length ∧
  (m.blocks.getD c.blk []).length = bs ∧
  c.off + c.len ≤ bs ∧
  (∀ i, c.ref = some i → i < m.refs.length)

/-- Every refcount cell referenced by a chunk of the buffer counts at least its
own reference (true in every reachable state; used for Clone). -/
def refsLive (m : Mem) (bufs : List DataChunk) : Prop :=
  ∀ c ∈ bufs, ∀ i, c.ref = some i → 1 ≤ m.refs.getD i 0

/-- Well-formedness of a buffer: every chunk is well formed and no two chunks of
the same buffer share a backing block. -/
def WF (bs : Nat) (m : Mem) (bufs : List DataChunk) : Prop :=
  (∀ c ∈ bufs, chunkWF bs m c) ∧ (bufs.map (·.blk)).Nodup

instance (bs : Nat) (m : Mem) (c : DataChunk) : Decidable (chunkWF bs m c) := by
  unfold chunkWF
  have : Decidable (∀ i, c.ref = some i → i < m.refs.length) := by
    cases h : c.ref with
    | none => exact isTrue (by simp [h])
    | some j =>
      refine decidable_of_iff (j < m.refs.length) ?_
      constructor
      · rintro hj i hi
        cases hi
        exact hj
      · intro hall
        exact hall j rfl
  exact instDecidableAnd

instance (bs : Nat) (m : Mem) (bufs : List DataChunk) : Decidable (WF bs m bufs) := by
  unfold WF
  exact instDecidableAnd

instance (m : Mem) (bufs : List DataChunk) : Decidable (refsLive m bufs) := by
  unfold refsLive
  have : ∀ c : DataChunk, Decidable (∀ i, c.ref = some i → 1 ≤ m.refs.getD i 0) := by
    intro c
    cases h : c.ref with
    | none => exact isTrue (by simp [h])
    | some j =>
      refine decidable_of_iff (1 ≤ m.refs.getD j 0) ?_
      constructor
      · rintro hj i hi
        cases hi
        exact hj
      · intro hall
        exact hall j rfl
  exact List.decidableBAll _ bufs

/-- The operations of claim C4's sequences, with their external scripts. -/
inductive BufOp where
  | write (p : List Nat)
  | read (k : Nat)
  | readFrom (script : RdScript)
  | writeTo (wv : Option WvScript) (script : WrScript)
  | bytes
  | reset

/-- One operation step, returning the new state together with the number of bytes
the operation appended to the buffer and the number it consumed from it. -/
def stepOp (bs : Nat) (m : Mem) (bufs : List DataChunk) :
    BufOp → (Mem × List DataChunk) × Nat × Nat
  | BufOp.write p => ((bufWrite bs m bufs p).1, p.length, 0)
  | BufOp.read k =>
      let r := bufRead m bufs k
      ((r.m, r.bufs), 0, r.cnt)
  | BufOp.readFrom s =>
      let ((m1, b1), n, _) := bufReadFrom bs m bufs s
      ((m1, b1), n, 0)
  | BufOp.writeTo wv s =>
      let ((m1, b1), (n, _), _) := bufWriteTo m bufs wv s
      ((m1, b1), 0, n)
  | BufOp.bytes =>
      let (st, out) := bufBytes m bufs
      (st, 0, out.length)
  | BufOp.reset => (bufReset m bufs, 0, bufLen bufs)

/-- Run a sequence of operations, accumulating total appended and consumed bytes. -/
def runOps (bs : Nat) : Mem × List DataChunk → List BufOp → (Mem × List DataChunk) × Nat × Nat
  | st, [] => (st, 0, 0)
  | (m, bufs), op :: ops =>
      let (st1, a, c) := stepOp bs m bufs op
      let (st2, as, cs) := runOps bs st1 ops
      (st2, a + as, c + cs)

/-- Run a sequence of Write calls. -/
def runWrites (bs : Nat) (st : Mem × List DataChunk) (ws : List (List Nat)) : Mem × List DataChunk :=
  ws.foldl (fun st p => (bufWrite bs st.1 st.2 p).1) st

/-- Run a sequence of Read calls with the given destination lengths, concatenating
the bytes they deliver. -/
def runReads : Mem × List DataChunk → List Nat → (Mem × List DataChunk) × List Nat
  | st, [] => (st, [])
  | (m, bufs), k :: ks =>
      let r := bufRead m bufs k
      let (st1, out) := runReads (r.m, r.bufs) ks
      (st1, r.out ++ out)

/-- Run a sequence of Write calls against one owner of a shared chunk list while
the other owner's list stays fixed (claim C5). -/
def foldWrites (bs : Nat) (st : Mem × List DataChunk) (ps : List (List Nat)) : Mem × List DataChunk :=
  ps.foldl (fun st p => (bufWrite bs st.1 st.2 p).1) st

/-- Iterated releases of the same chunk (claim C7): `k` owners release it in turn. -/
def releaseN (m : Mem) (c : DataChunk) : Nat → Mem
  | 0 => m
  | k + 1 => returnDataChunk (releaseN m c k) c

/-- The empty store: no blocks handed out, no refcount cells, nothing freed. -/
def initMem : Mem := ⟨[], [], []⟩

/-- The error Buffer.ReadFrom reports for a given source script: the first error
entry decides — io.EOF is turned into success (`none`), any other failure is
passed through unchanged. -/
def rdScriptErr : RdScript → Option Nat
  | [] => none
  | (_, none) :: rest => rdScriptErr rest
  | (_, some RdErr.eof) :: _ => none
  | (_, some (RdErr.fail k)) :: _ => some k

/-- Separation between two owners of shared chunks: whenever a chunk of one
owner's list shares a backing block with a chunk of the other's list, the
first owner's chunk fails the exclusive-ownership test, so no append may
go through it. -/
def sepRef (m : Mem) (bList cList : List DataChunk) : Prop :=
  ∀ cb ∈ bList, ∀ cc ∈ cList, cb.blk = cc.blk → refOK m cb = false

/-! Helper lemmas about the store and chunk views. -/

theorem getD_congr_getElem? {α : Type} {l l' : List α} {i : Nat} {d : α}
    (h : l[i]? = l'[i]?) : l.getD i d = l'.getD i d := by
  rw [List.getD_eq_getD_get?, List.getD_eq_getD_get?, List.get?_eq_getElem?,
    List.get?_eq_getElem?, h]

theorem getD_set_ne {α : Type} (l : List α) (i j : Nat) (b d : α) (h : j ≠ i) :
    (l.set j b).getD i d = l.getD i d :=
  getD_congr_getElem? (List.getElem?_set_ne h)

theorem getD_set_self {α : Type} (l : List α) (j : Nat) (b d : α) (h : j < l.length) :
    (l.set j b).getD j d = b := by
  rw [List.getD_eq_getD_get?, List.get?_eq_getElem?, List.getElem?_set_self h]
  rfl

theorem getD_append_left {α : Type} (l l' : List α) (i : Nat) (d : α) (h : i < l.length) :
    (l ++ l').getD i d = l.getD i d :=
  List.getD_append l l' d i h

theorem spliceAt_length (l : List Nat) (pos : Nat) (q : List Nat)
    (h : pos + q.length ≤ l.length) : (spliceAt l pos q).length = l.length := by
  simp only [spliceAt, List.length_append, List.length_take, List.length_drop]
  omega

theorem returnDataChunk_blocks (m : Mem) (c : DataChunk) :
    (returnDataChunk m c).blocks = m.blocks := by
  unfold returnDataChunk
  cases c.ref
  · rfl
  · simp only
    split <;> rfl

theorem dropConsumed_blocks (m : Mem) (n : Nat) (bufs : List DataChunk) :
    (dropConsumed m n bufs).1.blocks = m.blocks := by
  induction bufs generalizing m n with
  | nil => rfl
  | cons c rest ih =>
      unfold dropConsumed
      split
      · split
        · simp [returnDataChunk_blocks]
        · rw [ih]
          exact returnDataChunk_blocks m c
      · rfl

theorem bufRead_blocks (m : Mem) (bufs : List DataChunk) (k : Nat) :
    (bufRead m bufs k).m.blocks = m.blocks := by
  induction bufs generalizing m k with
  | nil => rfl
  | cons c rest ih =>
      unfold bufRead
      split
      · split
        · simp [returnDataChunk_blocks]
        · simp only
          rw [ih]
          exact returnDataChunk_blocks m c
      · rfl

theorem chunkView_congr {m m' : Mem} (c : DataChunk)
    (h : m'.blocks.getD c.blk [] = m.blocks.getD c.blk []) :
    chunkView m' c = chunkView m c := by
  unfold chunkView
  rw [h]

theorem contents_append (m : Mem) (l1 l2 : List DataChunk) :
    contents m (l1 ++ l2) = contents m l1 ++ contents m l2 := by
  unfold contents
  rw [List.map_append, List.flatten_append]

theorem contents_cons (m : Mem) (c : DataChunk) (l : List DataChunk) :
    contents m (c :: l) = chunkView m c ++ contents m l := rfl

theorem contents_nil (m : Mem) : contents m [] = [] := rfl

theorem contents_single (m : Mem) (c : DataChunk) :
    contents m [c] = chunkView m c := by
  simp [contents]

theorem bufLen_append (l1 l2 : List DataChunk) :
    bufLen (l1 ++ l2) = bufLen l1 + bufLen l2 := by
  unfold bufLen
  rw [List.map_append, List.sum_append]

theorem bufLen_cons (c : DataChunk) (l : List DataChunk) :
    bufLen (c :: l) = c.len + bufLen l := rfl

theorem chunkView_len_of_WF {bs : Nat} {m : Mem} {c : DataChunk} (h : chunkWF bs m c) :
    (chunkView m c).length = c.len := by
  obtain ⟨_, hlen, hoff, _⟩ := h
  unfold chunkView
  rw [List.length_take, List.length_drop, hlen]
  omega

theorem contents_len_of_WF {bs : Nat} {m : Mem} {bufs : List DataChunk}
    (h : ∀ c ∈ bufs, chunkWF bs m c) : (contents m bufs).length = bufLen bufs := by
  induction bufs with
  | nil => rfl
  | cons c rest ih =>
      rw [contents_cons, bufLen_cons, List.length_append,
        chunkView_len_of_WF (h c (by simp)), ih (fun d hd => h d (by simp [hd]))]

theorem take_append_exact {α : Type} (X Y : List α) (a b : Nat) (ha : X.length = a) :
    (X ++ Y).take (a + b) = X ++ Y.take b := by
  subst ha
  exact List.take_append b

theorem chunkView_appendBytes_self (m : Mem) (c : DataChunk) (q : List Nat)
    (hb : c.blk < m.blocks.length)
    (hq : c.off + c.len + q.length ≤ (m.blocks.getD c.blk []).length) :
    chunkView (appendBytes m c q) { c with len := c.len + q.length } = chunkView m c ++ q := by
  unfold chunkView appendBytes spliceAt
  simp only
  rw [getD_set_self _ _ _ _ hb]
  set B := m.blocks.getD c.blk [] with hB
  have h1 : c.off ≤ (B.take (c.off + c.len)).length := by
    rw [List.length_take]
    omega
  rw [List.append_assoc, List.drop_append_of_le_length h1, List.drop_take,
    Nat.add_sub_cancel_left]
  have h2 : (List.take c.len (List.drop c.off B)).length = c.len := by
    rw [List.length_take, List.length_drop]
    omega
  rw [take_append_exact _ _ _ _ h2, List.take_append_of_le_length (le_refl q.length),
    List.take_length]

theorem chunkView_appendBytes_other (m : Mem) (c : DataChunk) (q : List Nat)
    (d : DataChunk) (h : d.blk ≠ c.blk) :
    chunkView (appendBytes m c q) d = chunkView m d := by
  apply chunkView_congr
  exact getD_set_ne _ _ _ _ _ (fun he => h (he.symm))

theorem chunkView_newBlock (m : Mem) (b : List Nat) (d : DataChunk)
    (h : d.blk < m.blocks.length) :
    chunkView { m with blocks := m.blocks ++ [b] } d = chunkView m d := by
  apply chunkView_congr
  exact getD_append_left _ _ _ _ h

theorem appendBytes_getD_other (m : Mem) (c : DataChunk) (q : List Nat) (i : Nat)
    (h : i ≠ c.blk) : (appendBytes m c q).blocks.getD i [] = m.blocks.getD i [] :=
  getD_set_ne _ _ _ _ _ (fun he => h (he.symm))

theorem appendBytes_getD_len (m : Mem) (c : DataChunk) (q : List Nat) (i : Nat)
    (hq : c.off + c.len + q.length ≤ (m.blocks.getD c.blk []).length) :
    ((appendBytes m c q).blocks.getD i []).length = (m.blocks.getD i []).length := by
  by_cases h : i = c.blk
  · by_cases hb : c.blk < m.blocks.length
    · rw [h, show (appendBytes m c q).blocks.getD c.blk [] = spliceAt (m.blocks.getD c.blk []) (c.off + c.len) q from getD_set_self _ _ _ _ hb]
      exact spliceAt_length _ _ _ hq
    · rw [h]
      unfold appendBytes
      simp only
      rw [List.getD_eq_default _ _ (by simpa using Nat.le_of_not_lt hb),
        List.getD_eq_default _ _ (Nat.le_of_not_lt hb)]
  · rw [appendBytes_getD_other _ _ _ _ h]

theorem appendBytes_length (m : Mem) (c : DataChunk) (q : List Nat) :
    (appendBytes m c q).blocks.length = m.blocks.length := by
  unfold appendBytes
  simp

theorem appendBytes_refs (m : Mem) (c : DataChunk) (q : List Nat) :
    (appendBytes m c q).refs = m.refs := rfl

theorem appendBytes_freed (m : Mem) (c : DataChunk) (q : List Nat) :
    (appendBytes m c q).freed = m.freed := rfl

theorem getD_snoc_self {α : Type} (l : List α) (b d : α) : (l ++ [b]).getD l.length d = b := by
  rw [List.getD_append_right _ _ _ _ (le_refl _), Nat.sub_self]
  rfl

theorem chunkWF_appendBytes {bs : Nat} {m : Mem} {c : DataChunk} {q : List Nat}
    (hq : c.off + c.len + q.length ≤ (m.blocks.getD c.blk []).length)
    {d : DataChunk} (h : chunkWF bs m d) : chunkWF bs (appendBytes m c q) d := by
  obtain ⟨h1, h2, h3, h4⟩ := h
  refine ⟨?_, ?_, h3, h4⟩
  · rw [appendBytes_length]
    exact h1
  · rw [appendBytes_getD_len _ _ _ _ hq]
    exact h2

theorem chunkWF_newBlock {bs : Nat} {m : Mem} {b : List Nat} {d : DataChunk}
    (h : chunkWF bs m d) : chunkWF bs { m with blocks := m.blocks ++ [b] } d := by
  obtain ⟨h1, h2, h3, h4⟩ := h
  refine ⟨?_, ?_, h3, h4⟩
  · simp only [List.length_append, List.length_cons, List.length_nil]
    omega
  · rw [getD_append_left _ _ _ _ h1]
    exact h2

theorem chunkWF_fresh (bs : Nat) (m : Mem) :
    chunkWF bs (newDataChunk bs m).1 (newDataChunk bs m).2 := by
  unfold newDataChunk
  refine ⟨by simp, ?_, by simp, by simp⟩
  simp only
  rw [getD_snoc_self]
  exact List.length_replicate bs 0

theorem writableB_fresh (bs : Nat) (hbs : 0 < bs) (m : Mem) :
    writableB (newDataChunk bs m).1 (newDataChunk bs m).2 = true := by
  unfold writableB newDataChunk refOK
  simp only [Bool.and_eq_true, decide_eq_true_eq]
  constructor
  · rw [getD_snoc_self]
    simpa using hbs
  · trivial

theorem writeLoop_step_writable (bs f : Nat) (m : Mem) (front : List DataChunk)
    (tl : DataChunk) (a : Nat) (p0 : List Nat) (hw : writableB m tl = true) :
    writeLoop bs (f + 1) m front tl (a :: p0) =
      writeLoop bs f
        (appendBytes m tl ((a :: p0).take
          (min (a :: p0).length ((m.blocks.getD tl.blk []).length - tl.off - tl.len))))
        front
        { tl with len := tl.len + min (a :: p0).length ((m.blocks.getD tl.blk []).length - tl.off - tl.len) }
        ((a :: p0).drop (min (a :: p0).length ((m.blocks.getD tl.blk []).length - tl.off - tl.len))) := by
  simp only [writeLoop, hw, if_true]

theorem writeLoop_step_append (bs f : Nat) (m : Mem) (front : List DataChunk)
    (tl : DataChunk) (a : Nat) (p0 : List Nat) (hw : writableB m tl = false) :
    writeLoop bs (f + 1) m front tl (a :: p0) =
      writeLoop bs f (newDataChunk bs m).1 (front ++ [tl]) (newDataChunk bs m).2 (a :: p0) := by
  simp only [writeLoop, hw, if_false, Bool.false_eq_true, newDataChunk]

theorem contents_congr {m m' : Mem} {bufs : List DataChunk}
    (h : ∀ c ∈ bufs, chunkView m' c = chunkView m c) : contents m' bufs = contents m bufs := by
  induction bufs with
  | nil => rfl
  | cons c rest ih =>
      rw [contents_cons, contents_cons, h c (by simp), ih (fun d hd => h d (by simp [hd]))]

/-- Workhorse for Buffer.Write (and, by duplication, WriteString): with a positive
block size and enough fuel, the append loop appends exactly `p` to the buffer's
content, preserves well-formedness, touches neither refcount cells nor the
freed list, keeps the chunks before the tail intact, and mutates no
pre-existing block other than (possibly) the writable tail's. -/
theorem writeLoop_spec (bs : Nat) (hbs : 0 < bs) (fuel : Nat) :
    ∀ (m : Mem) (front : List DataChunk) (tl : DataChunk) (p : List Nat),
    (∀ c ∈ front, chunkWF bs m c) → chunkWF bs m tl →
    ((front ++ [tl]).map (·.blk)).Nodup →
    2 * p.length + 1 ≤ fuel →
    contents (writeLoop bs fuel m front tl p).1 (writeLoop bs fuel m front tl p).2 =
      contents m (front ++ [tl]) ++ p ∧
    WF bs (writeLoop bs fuel m front tl p).1 (writeLoop bs fuel m front tl p).2 ∧
    (writeLoop bs fuel m front tl p).1.refs = m.refs ∧
    (writeLoop bs fuel m front tl p).1.freed = m.freed ∧
    m.blocks.length ≤ (writeLoop bs fuel m front tl p).1.blocks.length ∧
    (∃ mid, (writeLoop bs fuel m front tl p).2 = front ++ mid) ∧
    (∀ i, i < m.blocks.length → (i ≠ tl.blk ∨ writableB m tl = false) →
      (writeLoop bs fuel m front tl p).1.blocks.getD i [] = m.blocks.getD i []) := by
  induction fuel using Nat.strong_induction_on with
  | _ fuel ih =>
    intro m front tl p hfront htl hnd hfuel
    cases p with
    | nil =>
        simp only [writeLoop]
        refine ⟨by rw [List.append_nil], ⟨?_, hnd⟩, trivial, trivial, le_refl _, ⟨[tl], rfl⟩, fun i _ _ => trivial⟩
        intro c hc
        rcases List.mem_append.1 hc with h | h
        · exact hfront c h
        · rw [List.mem_singleton.1 h]
          exact htl
    | cons a p0 =>
        cases fuel with
        | zero => omega
        | succ f =>
            by_cases hw : writableB m tl = true
            · -- the tail has free capacity and is exclusively owned: copy a prefix of p
              have hcap : tl.off + tl.len < (m.blocks.getD tl.blk []).length := by
                have h' := hw
                unfold writableB at h'
                rw [Bool.and_eq_true, decide_eq_true_eq] at h'
                exact h'.1
              obtain ⟨hbb, hbl, hbo, hbr⟩ := htl
              have hdisj : ∀ c ∈ front, c.blk ≠ tl.blk := by
                intro c hc heq
                rw [List.map_append] at hnd
                rcases List.nodup_append.1 hnd with ⟨-, -, hdj⟩
                exact hdj (List.mem_map.2 ⟨c, hc, rfl⟩) (by simp [heq])
              rw [writeLoop_step_writable bs f m front tl a p0 hw]
              set n := min (a :: p0).length ((m.blocks.getD tl.blk []).length - tl.off - tl.len) with hn
              set q := (a :: p0).take n with hqdef
              set m1 := appendBytes m tl q with hm1
              set tl1 : DataChunk := { tl with len := tl.len + n } with htl1def
              have hn1 : 1 ≤ n := by
                rw [hn]
                refine Nat.le_min.2 ⟨by simp, by omega⟩
              have hnle : n ≤ (a :: p0).length := by
                rw [hn]
                exact Nat.min_le_left _ _
              have hqlen : q.length = n := by
                rw [hqdef, List.length_take]
                omega
              have hqfit : tl.off + tl.len + q.length ≤ (m.blocks.getD tl.blk []).length := by
                rw [hqlen, hn]
                have := Nat.min_le_right (a :: p0).length ((m.blocks.getD tl.blk []).length - tl.off - tl.len)
                omega
              have htl1 : chunkWF bs m1 tl1 := by
                refine ⟨?_, ?_, ?_, hbr⟩
                · rw [hm1, appendBytes_length]
                  exact hbb
                · rw [hm1, appendBytes_getD_len _ _ _ _ hqfit]
                  exact hbl
                · show tl.off + (tl.len + n) ≤ bs
                  rw [hn]
                  have := Nat.min_le_right (a :: p0).length ((m.blocks.getD tl.blk []).length - tl.off - tl.len)
                  omega
              have hfront1 : ∀ c ∈ front, chunkWF bs m1 c := by
                intro c hc
                rw [hm1]
                exact chunkWF_appendBytes hqfit (hfront c hc)
              have hnd1 : ((front ++ [tl1]).map (·.blk)).Nodup := by
                have he : (front ++ [tl1]).map (·.blk) = (front ++ [tl]).map (·.blk) := by
                  simp [htl1def]
                rw [he]
                exact hnd
              have hfuel1 : 2 * ((a :: p0).drop n).length + 1 ≤ f := by
                rw [List.length_drop]
                simp only [List.length_cons] at hfuel ⊢
                omega
              obtain ⟨IH1, IH2, IH3, IH4, IH5, IH6, IH7⟩ :=
                ih f (Nat.lt_succ_self f) m1 front tl1 ((a :: p0).drop n) hfront1 htl1 hnd1 hfuel1
              have hfrontview : contents m1 front = contents m front := by
                apply contents_congr
                intro c hc
                rw [hm1]
                exact chunkView_appendBytes_other m tl q c (hdisj c hc)
              have htlview : chunkView m1 tl1 = chunkView m tl ++ q := by
                have := chunkView_appendBytes_self m tl q hbb (by omega)
                rw [hm1]
                rw [show tl1 = { tl with len := tl.len + q.length } by rw [htl1def, hqlen]]
                exact this
              refine ⟨?_, IH2, ?_, ?_, ?_, IH6, ?_⟩
              · rw [IH1, contents_append, contents_append, contents_single, hfrontview,
                  htlview, contents_single, hqdef]
                simp [List.append_assoc]
              · rw [IH3, hm1, appendBytes_refs]
              · rw [IH4, hm1, appendBytes_freed]
              · rw [show m.blocks.length = m1.blocks.length by rw [hm1, appendBytes_length]]
                exact IH5
              · intro i hi hcond
                have hine : i ≠ tl.blk := by
                  rcases hcond with h | h
                  · exact h
                  · rw [hw] at h
                    cases h
                have e1 : (writeLoop bs f m1 front tl1 ((a :: p0).drop n)).1.blocks.getD i [] =
                    m1.blocks.getD i [] := by
                  apply IH7 i
                  · rw [hm1, appendBytes_length]
                    exact hi
                  · exact Or.inl hine
                rw [e1, hm1, appendBytes_getD_other _ _ _ _ hine]
            · -- the tail is full or shared: acquire a fresh chunk, which is then writable
              have hwf : writableB m tl = false := by
                rw [Bool.not_eq_true] at hw
                exact hw
              have hfge : 2 ≤ f := by
                simp only [List.length_cons] at hfuel
                omega
              obtain ⟨f2, rfl⟩ : ∃ f2, f = f2 + 1 := ⟨f - 1, by omega⟩
              rw [writeLoop_step_append bs (f2 + 1) m front tl a p0 hwf,
                writeLoop_step_writable bs f2 (newDataChunk bs m).1 (front ++ [tl])
                  (newDataChunk bs m).2 a p0 (writableB_fresh bs hbs m)]
              set mA := (newDataChunk bs m).1 with hmA
              set cA := (newDataChunk bs m).2 with hcA
              have hcAblk : cA.blk = m.blocks.length := rfl
              have hcAoff : cA.off = 0 := rfl
              have hcAlen : cA.len = 0 := rfl
              have hcAref : cA.ref = none := rfl
              have hAblocks : mA.blocks = m.blocks ++ [List.replicate bs 0] := rfl
              have hArefs : mA.refs = m.refs := rfl
              have hAfreed : mA.freed = m.freed := rfl
              have hgetA : mA.blocks.getD cA.blk [] = List.replicate bs 0 := by
                rw [hAblocks, hcAblk]
                exact getD_snoc_self _ _ _
              have hgetAlen : (mA.blocks.getD cA.blk []).length = bs := by
                rw [hgetA]
                exact List.length_replicate bs 0
              set n := min (a :: p0).length ((mA.blocks.getD cA.blk []).length - cA.off - cA.len) with hn
              set q := (a :: p0).take n with hqdef
              set m2 := appendBytes mA cA q with hm2
              set cA1 : DataChunk := { cA with len := cA.len + n } with hcA1
              have hnbs : n = min (a :: p0).length bs := by
                rw [hn, hgetAlen, hcAoff, hcAlen]
                simp
              have hn1 : 1 ≤ n := by
                rw [hnbs]
                refine Nat.le_min.2 ⟨by simp, hbs⟩
              have hnle : n ≤ (a :: p0).length := by
                rw [hn]
                exact Nat.min_le_left _ _
              have hqlen : q.length = n := by
                rw [hqdef, List.length_take]
                omega
              have hqfit : cA.off + cA.len + q.length ≤ (mA.blocks.getD cA.blk []).length := by
                rw [hcAoff, hcAlen, hqlen, hgetAlen, hnbs]
                have := Nat.min_le_right (a :: p0).length bs
                omega
              have hbltA : ∀ c ∈ front ++ [tl], c.blk < m.blocks.length := by
                intro c hc
                rcases List.mem_append.1 hc with h | h
                · exact (hfront c h).1
                · rw [List.mem_singleton.1 h]
                  exact htl.1
              have hne : ∀ c ∈ front ++ [tl], c.blk ≠ cA.blk := by
                intro c hc
                rw [hcAblk]
                exact Nat.ne_of_lt (hbltA c hc)
              have hfrontA : ∀ c ∈ front ++ [tl], chunkWF bs m2 c := by
                intro c hc
                rw [hm2]
                apply chunkWF_appendBytes hqfit
                rw [hmA]
                apply chunkWF_newBlock
                rcases List.mem_append.1 hc with h | h
                · exact hfront c h
                · rw [List.mem_singleton.1 h]
                  exact htl
              have hcA1wf : chunkWF bs m2 cA1 := by
                refine ⟨?_, ?_, ?_, ?_⟩
                · rw [hm2, appendBytes_length, hmA]
                  show cA.blk < (m.blocks ++ [List.replicate bs 0]).length
                  rw [hcAblk, List.length_append]
                  simp
                · rw [hm2, appendBytes_getD_len _ _ _ _ hqfit]
                  exact hgetAlen
                · show cA.off + (cA.len + n) ≤ bs
                  rw [hcAoff, hcAlen, hnbs]
                  have := Nat.min_le_right (a :: p0).length bs
                  omega
                · intro i hi
                  rw [show cA1.ref = none from hcAref] at hi
                  cases hi
              have hndA : (((front ++ [tl]) ++ [cA1]).map (·.blk)).Nodup := by
                rw [List.map_append]
                refine List.Nodup.append hnd (List.nodup_singleton _) ?_
                intro x hx hx2
                have : x = cA1.blk := by
                  rcases List.mem_singleton.1 hx2 with h
                  simp [h]
                rw [this] at hx
                rcases List.mem_map.1 hx with ⟨c, hc, hcx⟩
                have h1 : c.blk < m.blocks.length := hbltA c hc
                have h2 : cA1.blk = m.blocks.length := hcAblk
                omega
              have hfuelA : 2 * ((a :: p0).drop n).length + 1 ≤ f2 := by
                rw [List.length_drop]
                simp only [List.length_cons] at hfuel ⊢
                omega
              obtain ⟨IH1, IH2, IH3, IH4, IH5, IH6, IH7⟩ :=
                ih f2 (by omega) m2 (front ++ [tl]) cA1 ((a :: p0).drop n) hfrontA hcA1wf hndA hfuelA
              have hfrontview : contents m2 (front ++ [tl]) = contents m (front ++ [tl]) := by
                apply contents_congr
                intro c hc
                rw [hm2, chunkView_appendBytes_other mA cA q c (hne c hc), hmA]
                exact chunkView_newBlock m _ c (hbltA c hc)
              have hcAview : chunkView mA cA = [] := by
                unfold chunkView
                rw [hcAlen]
                exact List.take_zero _
              have htlview : chunkView m2 cA1 = q := by
                have h := chunkView_appendBytes_self mA cA q (by rw [hcAblk, hAblocks]; simp) (by omega)
                rw [hcAview] at h
                rw [hm2, show cA1 = { cA with len := cA.len + q.length } by rw [hcA1, hqlen]]
                rw [h]
                simp
              refine ⟨?_, IH2, ?_, ?_, ?_, ?_, ?_⟩
              · rw [IH1, contents_append, hfrontview, contents_single, htlview, hqdef]
                simp [List.append_assoc]
              · rw [IH3, hm2, appendBytes_refs, hArefs]
              · rw [IH4, hm2, appendBytes_freed, hAfreed]
              · have h1 : m.blocks.length ≤ m2.blocks.length := by
                  rw [hm2, appendBytes_length, hmA, hAblocks, List.length_append]
                  simp
                omega
              · obtain ⟨mid, hmid⟩ := IH6
                exact ⟨[tl] ++ mid, by rw [hmid, List.append_assoc]⟩
              · intro i hi hcond
                have hiA : i < m2.blocks.length := by
                  rw [hm2, appendBytes_length, hmA, hAblocks, List.length_append]
                  simp only [List.length_cons, List.length_nil]
                  omega
                have hineA : i ≠ cA1.blk := by
                  rw [show cA1.blk = m.blocks.length from hcAblk]
                  omega
                have e1 := IH7 i hiA (Or.inl hineA)
                rw [e1, hm2, appendBytes_getD_other _ _ _ _ (by rw [hcAblk]; omega),
                  hmA, hAblocks, getD_append_left _ _ _ _ hi]

theorem bufWrite_eq_none (bs : Nat) (m : Mem) (bufs : List DataChunk) (p : List Nat)
    (hL : bufs.getLast? = none) :
    bufWrite bs m bufs p =
      (writeLoop bs (2 * p.length + 1) (newDataChunk bs m).1 [] (newDataChunk bs m).2 p,
        p.length, none) := by
  simp only [bufWrite, hL]

theorem bufWrite_eq_some (bs : Nat) (m : Mem) (bufs : List DataChunk) (p : List Nat)
    (tl : DataChunk) (hL : bufs.getLast? = some tl) :
    bufWrite bs m bufs p =
      (writeLoop bs (2 * p.length + 1) m bufs.dropLast tl p, p.length, none) := by
  simp only [bufWrite, hL]

/-- Buffer.Write appends exactly `p` to the content, returns `(len p, nil)`,
preserves well-formedness, never touches refcount cells or the freed list, and
mutates no pre-existing block except (possibly) that of a writable tail chunk. -/
theorem bufWrite_spec (bs : Nat) (hbs : 0 < bs) (m : Mem) (bufs : List DataChunk) (p : List Nat)
    (hwf : WF bs m bufs) :
    contents (bufWrite bs m bufs p).1.1 (bufWrite bs m bufs p).1.2 = contents m bufs ++ p ∧
    WF bs (bufWrite bs m bufs p).1.1 (bufWrite bs m bufs p).1.2 ∧
    (bufWrite bs m bufs p).1.1.refs = m.refs ∧
    (bufWrite bs m bufs p).1.1.freed = m.freed ∧
    m.blocks.length ≤ (bufWrite bs m bufs p).1.1.blocks.length ∧
    (bufWrite bs m bufs p).2 = (p.length, none) ∧
    (∀ i, i < m.blocks.length →
      (∀ h : bufs ≠ [], i ≠ (bufs.getLast h).blk ∨ writableB m (bufs.getLast h) = false) →
      (bufWrite bs m bufs p).1.1.blocks.getD i [] = m.blocks.getD i []) := by
  obtain ⟨hod, hnd⟩ := hwf
  cases hL : bufs.getLast? with
  | none =>
      have hnil : bufs = [] := List.getLast?_eq_none_iff.1 hL
      subst hnil
      rw [bufWrite_eq_none bs m [] p hL]
      obtain ⟨W1, W2, W3, W4, W5, W6, W7⟩ :=
        writeLoop_spec bs hbs (2 * p.length + 1) (newDataChunk bs m).1 []
          (newDataChunk bs m).2 p (by intro c hc; cases hc) (chunkWF_fresh bs m)
          (by simp) (le_refl _)
      refine ⟨?_, W2, ?_, ?_, ?_, rfl, ?_⟩
      · rw [W1]
        have : chunkView (newDataChunk bs m).1 (newDataChunk bs m).2 = [] := by
          unfold chunkView
          rw [show (newDataChunk bs m).2.len = 0 from rfl]
          exact List.take_zero _
        rw [List.nil_append, contents_single, this, contents_nil, List.nil_append]
      · rw [W3]
        rfl
      · rw [W4]
        rfl
      · refine le_trans ?_ W5
        rw [show (newDataChunk bs m).1.blocks = m.blocks ++ [List.replicate bs 0] from rfl]
        simp
      · intro i hi _
        have hi1 : i < (newDataChunk bs m).1.blocks.length := by
          rw [show (newDataChunk bs m).1.blocks = m.blocks ++ [List.replicate bs 0] from rfl]
          simp only [List.length_append, List.length_cons, List.length_nil]
          omega
        have hne : i ≠ (newDataChunk bs m).2.blk := by
          rw [show (newDataChunk bs m).2.blk = m.blocks.length from rfl]
          omega
        rw [W7 i hi1 (Or.inl hne),
          show (newDataChunk bs m).1.blocks = m.blocks ++ [List.replicate bs 0] from rfl,
          getD_append_left _ _ _ _ hi]
  | some tl =>
      have hne : bufs ≠ [] := by
        intro h
        rw [h] at hL
        cases hL
      have htl_eq : tl = bufs.getLast hne := by
        have h2 := List.getLast?_eq_getLast bufs hne
        rw [hL] at h2
        exact (Option.some.inj h2)
      have hdecomp : bufs.dropLast ++ [tl] = bufs := by
        rw [htl_eq]
        exact List.dropLast_append_getLast hne
      rw [bufWrite_eq_some bs m bufs p tl hL]
      obtain ⟨W1, W2, W3, W4, W5, W6, W7⟩ :=
        writeLoop_spec bs hbs (2 * p.length + 1) m bufs.dropLast tl p
          (fun c hc => hod c (List.dropLast_sublist bufs |>.mem hc))
          (hod tl (htl_eq ▸ List.getLast_mem hne))
          (by rw [hdecomp]; exact hnd) (le_refl _)
      refine ⟨?_, W2, W3, W4, W5, rfl, ?_⟩
      · rw [W1, hdecomp]
      · intro i hi hcond
        have := hcond hne
        rw [← htl_eq] at this
        exact W7 i hi this

theorem writeStringLoop_step_writable (bs f : Nat) (m : Mem) (front : List DataChunk)
    (tl : DataChunk) (a : Nat) (p0 : List Nat) (hw : writableB m tl = true) :
    writeStringLoop bs (f + 1) m front tl (a :: p0) =
      writeStringLoop bs f
        (appendBytes m tl ((a :: p0).take
          (min (a :: p0).length ((m.blocks.getD tl.blk []).length - tl.off - tl.len))))
        front
        { tl with len := tl.len + min (a :: p0).length ((m.blocks.getD tl.blk []).length - tl.off - tl.len) }
        ((a :: p0).drop (min (a :: p0).length ((m.blocks.getD tl.blk []).length - tl.off - tl.len))) := by
  simp only [writeStringLoop, hw, if_true]

theorem writeStringLoop_step_append (bs f : Nat) (m : Mem) (front : List DataChunk)
    (tl : DataChunk) (a : Nat) (p0 : List Nat) (hw : writableB m tl = false) :
    writeStringLoop bs (f + 1) m front tl (a :: p0) =
      writeStringLoop bs f (newDataChunk bs m).1 (front ++ [tl]) (newDataChunk bs m).2 (a :: p0) := by
  simp only [writeStringLoop, hw, if_false, Bool.false_eq_true, newDataChunk]

/-- The loop body of WriteString is a verbatim copy of Write's, so the two loops
compute the same function. -/
theorem writeStringLoop_eq_writeLoop (bs : Nat) (fuel : Nat) :
    ∀ (m : Mem) (front : List DataChunk) (tl : DataChunk) (p : List Nat),
    writeStringLoop bs fuel m front tl p = writeLoop bs fuel m front tl p := by
  induction fuel with
  | zero =>
      intro m front tl p
      cases p <;> rfl
  | succ f ih =>
      intro m front tl p
      cases p with
      | nil => rfl
      | cons a p0 =>
          by_cases hw : writableB m tl = true
          · rw [writeLoop_step_writable bs f m front tl a p0 hw,
              writeStringLoop_step_writable bs f m front tl a p0 hw, ih]
          · have hwf : writableB m tl = false := by
              rw [Bool.not_eq_true] at hw
              exact hw
            rw [writeLoop_step_append bs f m front tl a p0 hwf,
              writeStringLoop_step_append bs f m front tl a p0 hwf, ih]

/-- Buffer.WriteString computes exactly what Buffer.Write computes. -/
theorem bufWriteString_eq_bufWrite (bs : Nat) (m : Mem) (bufs : List DataChunk) (p : List Nat) :
    bufWriteString bs m bufs p = bufWrite bs m bufs p := by
  unfold bufWriteString bufWrite
  cases hL : bufs.getLast? with
  | none => simp only [writeStringLoop_eq_writeLoop]
  | some tl => simp only [writeStringLoop_eq_writeLoop]

theorem returnDataChunk_refs_length (m : Mem) (c : DataChunk) :
    (returnDataChunk m c).refs.length = m.refs.length := by
  unfold returnDataChunk
  cases c.ref
  · rfl
  · simp only
    split <;> simp [List.length_set]

theorem chunkWF_returnDataChunk {bs : Nat} {m : Mem} {c d : DataChunk}
    (h : chunkWF bs m d) : chunkWF bs (returnDataChunk m c) d := by
  obtain ⟨h1, h2, h3, h4⟩ := h
  refine ⟨?_, ?_, h3, ?_⟩
  · rw [returnDataChunk_blocks]
    exact h1
  · rw [returnDataChunk_blocks]
    exact h2
  · intro i hi
    rw [returnDataChunk_refs_length]
    exact h4 i hi

theorem chunkView_returnDataChunk (m : Mem) (c d : DataChunk) :
    chunkView (returnDataChunk m c) d = chunkView m d :=
  chunkView_congr d (by rw [returnDataChunk_blocks])

theorem contents_returnDataChunk (m : Mem) (c : DataChunk) (bufs : List DataChunk) :
    contents (returnDataChunk m c) bufs = contents m bufs :=
  contents_congr (fun d _ => chunkView_returnDataChunk m c d)

theorem chunkView_trim (m : Mem) (c : DataChunk) (k : Nat) :
    chunkView m { c with off := c.off + k, len := c.len - k } = (chunkView m c).drop k := by
  unfold chunkView
  simp only
  rw [← List.drop_drop, List.drop_take]

theorem WF_cons {bs : Nat} {m : Mem} {c : DataChunk} {rest : List DataChunk} :
    WF bs m (c :: rest) ↔
      chunkWF bs m c ∧ WF bs m rest ∧ c.blk ∉ rest.map (·.blk) := by
  unfold WF
  rw [List.map_cons, List.nodup_cons]
  constructor
  · rintro ⟨hall, hn1, hn2⟩
    exact ⟨hall c (by simp), ⟨fun d hd => hall d (by simp [hd]), hn2⟩, hn1⟩
  · rintro ⟨hc, ⟨hall, hn2⟩, hn1⟩
    refine ⟨?_, hn1, hn2⟩
    intro d hd
    rcases List.mem_cons.1 hd with h | h
    · rw [h]
      exact hc
    · exact hall d h

theorem drop_append_exact {α : Type} (X Y : List α) (a b : Nat) (ha : X.length = a) :
    (X ++ Y).drop (a + b) = Y.drop b := by
  subst ha
  exact List.drop_append b

/-- Buffer.Read delivers the first `min k len` bytes of the content into the
destination, leaves the remaining content in the buffer, reports the
number of bytes copied, keeps the store well formed, never touches block
contents, and returns io.EOF exactly when the chunk list was empty or held
fewer than `k` bytes. -/
theorem bufRead_spec (bs : Nat) (m : Mem) (bufs : List DataChunk) (k : Nat)
    (hwf : WF bs m bufs) :
    (bufRead m bufs k).out = (contents m bufs).take k ∧
    (bufRead m bufs k).cnt = min k (bufLen bufs) ∧
    contents (bufRead m bufs k).m (bufRead m bufs k).bufs = (contents m bufs).drop k ∧
    WF bs (bufRead m bufs k).m (bufRead m bufs k).bufs ∧
    (bufRead m bufs k).m.blocks = m.blocks ∧
    ((bufRead m bufs k).eof = true ↔ (bufs = [] ∨ bufLen bufs < k)) := by
  induction bufs generalizing m k with
  | nil =>
      refine ⟨?_, ?_, ?_, ?_, ?_, ?_⟩
      · show ([] : List Nat) = (contents m []).take k
        rw [contents_nil, List.take_nil]
      · show 0 = min k (bufLen [])
        simp [bufLen]
      · show contents m [] = (contents m []).drop k
        rw [contents_nil, List.drop_nil]
      · show WF bs m []
        exact ⟨(fun c hc => nomatch hc), List.nodup_nil⟩
      · show m.blocks = m.blocks
        rfl
      · show true = true ↔ (([] : List DataChunk) = [] ∨ bufLen [] < k)
        simp
  | cons c rest ih =>
      obtain ⟨hcwf, hrest, hnotin⟩ := WF_cons.1 hwf
      have hviewlen : (chunkView m c).length = c.len := chunkView_len_of_WF hcwf
      by_cases hck : c.len ≤ k
      · by_cases hke : k = c.len
        · -- the destination is filled exactly as the front chunk is exhausted
          have hb : bufRead m (c :: rest) k = ⟨returnDataChunk m c, rest, chunkView m c, c.len, false⟩ := by
            simp only [bufRead, if_pos hck, if_pos hke]
          rw [hb]
          subst hke
          refine ⟨?_, ?_, ?_, ?_, ?_, ?_⟩
          · show chunkView m c = (contents m (c :: rest)).take c.len
            rw [contents_cons, List.take_append_of_le_length (by omega),
              List.take_of_length_le (by omega)]
          · show c.len = min c.len (bufLen (c :: rest))
            rw [bufLen_cons]
            omega
          · show contents (returnDataChunk m c) rest = (contents m (c :: rest)).drop c.len
            rw [contents_returnDataChunk, contents_cons, List.drop_left' hviewlen]
          · show WF bs (returnDataChunk m c) rest
            exact ⟨fun d hd => chunkWF_returnDataChunk (hrest.1 d hd), hrest.2⟩
          · show (returnDataChunk m c).blocks = m.blocks
            exact returnDataChunk_blocks m c
          · show false = true ↔ (c :: rest = [] ∨ bufLen (c :: rest) < c.len)
            simp only [Bool.false_eq_true, false_iff]
            push_neg
            refine ⟨by simp, ?_⟩
            rw [bufLen_cons]
            omega
        · -- the front chunk is exhausted and reading continues on the rest
          have hlt : c.len < k := by omega
          have hb : bufRead m (c :: rest) k =
              ⟨(bufRead (returnDataChunk m c) rest (k - c.len)).m,
               (bufRead (returnDataChunk m c) rest (k - c.len)).bufs,
               chunkView m c ++ (bufRead (returnDataChunk m c) rest (k - c.len)).out,
               c.len + (bufRead (returnDataChunk m c) rest (k - c.len)).cnt,
               (bufRead (returnDataChunk m c) rest (k - c.len)).eof⟩ := by
            simp only [bufRead, if_pos hck, if_neg hke]
          rw [hb]
          have hrest1 : WF bs (returnDataChunk m c) rest :=
            ⟨fun d hd => chunkWF_returnDataChunk (hrest.1 d hd), hrest.2⟩
          obtain ⟨R1, R2, R3, R4, R5, R6⟩ := ih (returnDataChunk m c) (k - c.len) hrest1
          have hcr : contents (returnDataChunk m c) rest = contents m rest :=
            contents_returnDataChunk m c rest
          refine ⟨?_, ?_, ?_, R4, ?_, ?_⟩
          · show chunkView m c ++ (bufRead (returnDataChunk m c) rest (k - c.len)).out =
              (contents m (c :: rest)).take k
            rw [R1, hcr, contents_cons]
            conv_rhs => rw [show k = c.len + (k - c.len) by omega]
            rw [take_append_exact _ _ _ _ hviewlen]
          · show c.len + (bufRead (returnDataChunk m c) rest (k - c.len)).cnt =
              min k (bufLen (c :: rest))
            rw [R2, bufLen_cons]
            omega
          · show contents (bufRead (returnDataChunk m c) rest (k - c.len)).m
                (bufRead (returnDataChunk m c) rest (k - c.len)).bufs =
              (contents m (c :: rest)).drop k
            rw [R3, hcr, contents_cons]
            conv_rhs => rw [show k = c.len + (k - c.len) by omega]
            rw [drop_append_exact _ _ _ _ hviewlen]
          · show (bufRead (returnDataChunk m c) rest (k - c.len)).m.blocks = m.blocks
            rw [R5, returnDataChunk_blocks]
          · show (bufRead (returnDataChunk m c) rest (k - c.len)).eof = true ↔
              (c :: rest = [] ∨ bufLen (c :: rest) < k)
            rw [R6, bufLen_cons]
            constructor
            · rintro (h | h)
              · right
                rw [h]
                simp only [bufLen, List.map_nil, List.sum_nil]
                omega
              · right
                omega
            · rintro (h | h)
              · cases h
              · right
                omega
      · -- the destination is filled with the front chunk only partially consumed
        have hkc : k < c.len := by omega
        have hb : bufRead m (c :: rest) k =
            ⟨m, { c with off := c.off + k, len := c.len - k } :: rest,
             (chunkView m c).take k, k, false⟩ := by
          simp only [bufRead, if_neg hck]
        rw [hb]
        refine ⟨?_, ?_, ?_, ?_, rfl, ?_⟩
        · show (chunkView m c).take k = (contents m (c :: rest)).take k
          rw [contents_cons, List.take_append_of_le_length (by omega)]
        · show k = min k (bufLen (c :: rest))
          rw [bufLen_cons]
          omega
        · show contents m ({ c with off := c.off + k, len := c.len - k } :: rest) =
            (contents m (c :: rest)).drop k
          rw [contents_cons, contents_cons, chunkView_trim,
            List.drop_append_of_le_length (by omega)]
        · show WF bs m ({ c with off := c.off + k, len := c.len - k } :: rest)
          refine WF_cons.2 ⟨?_, hrest, ?_⟩
          · obtain ⟨h1, h2, h3, h4⟩ := hcwf
            exact ⟨h1, h2, by simp only; omega, h4⟩
          · simpa using hnotin
        · show false = true ↔ (c :: rest = [] ∨ bufLen (c :: rest) < k)
          simp only [Bool.false_eq_true, false_iff]
          push_neg
          refine ⟨by simp, ?_⟩
          rw [bufLen_cons]
          omega

theorem runWrites_spec (bs : Nat) (hbs : 0 < bs) (ws : List (List Nat)) :
    ∀ (m : Mem) (bufs : List DataChunk), WF bs m bufs →
    contents (runWrites bs (m, bufs) ws).1 (runWrites bs (m, bufs) ws).2 =
      contents m bufs ++ ws.flatten ∧
    WF bs (runWrites bs (m, bufs) ws).1 (runWrites bs (m, bufs) ws).2 := by
  induction ws with
  | nil =>
      intro m bufs hwf
      exact ⟨by simp [runWrites], hwf⟩
  | cons w ws ih =>
      intro m bufs hwf
      obtain ⟨W1, W2, _⟩ := bufWrite_spec bs hbs m bufs w hwf
      have hstep : runWrites bs (m, bufs) (w :: ws) =
          runWrites bs ((bufWrite bs m bufs w).1.1, (bufWrite bs m bufs w).1.2) ws := by
        simp [runWrites]
      rw [hstep]
      obtain ⟨I1, I2⟩ := ih (bufWrite bs m bufs w).1.1 (bufWrite bs m bufs w).1.2 W2
      refine ⟨?_, I2⟩
      rw [I1, W1, List.flatten_cons, List.append_assoc]

theorem runReads_spec (bs : Nat) (ks : List Nat) :
    ∀ (m : Mem) (bufs : List DataChunk), WF bs m bufs →
    (runReads (m, bufs) ks).2 = (contents m bufs).take ks.sum ∧
    contents (runReads (m, bufs) ks).1.1 (runReads (m, bufs) ks).1.2 =
      (contents m bufs).drop ks.sum ∧
    WF bs (runReads (m, bufs) ks).1.1 (runReads (m, bufs) ks).1.2 := by
  induction ks with
  | nil =>
      intro m bufs hwf
      exact ⟨by simp [runReads], by simp [runReads], hwf⟩
  | cons k ks ih =>
      intro m bufs hwf
      obtain ⟨R1, R2, R3, R4, R5, R6⟩ := bufRead_spec bs m bufs k hwf
      have hstep1 : (runReads (m, bufs) (k :: ks)).2 =
          (bufRead m bufs k).out ++ (runReads ((bufRead m bufs k).m, (bufRead m bufs k).bufs) ks).2 := by
        simp [runReads]
      have hstep2 : (runReads (m, bufs) (k :: ks)).1 =
          (runReads ((bufRead m bufs k).m, (bufRead m bufs k).bufs) ks).1 := by
        simp [runReads]
      obtain ⟨I1, I2, I3⟩ := ih (bufRead m bufs k).m (bufRead m bufs k).bufs R4
      refine ⟨?_, ?_, ?_⟩
      · rw [hstep1, I1, R1, R3, List.sum_cons, List.take_add]
      · rw [hstep2, I2, R3, List.sum_cons, List.drop_drop]
      · rw [hstep2]
        exact I3

/-- One source call in Buffer.ReadFrom: ensure a writable tail (acquiring at most
one fresh chunk), then ingest a prefix of the script entry's bytes into its free
capacity.  Packages the resulting state and all facts the loop induction needs. -/
theorem rfStep_spec (bs : Nat) (m : Mem) (front : List DataChunk) (tl : DataChunk)
    (d : List Nat) (hfront : ∀ c ∈ front, chunkWF bs m c) (htl : chunkWF bs m tl)
    (hnd : ((front ++ [tl]).map (·.blk)).Nodup) :
    ∃ (m2 : Mem) (front2 : List DataChunk) (tl2 : DataChunk) (n : Nat),
    (∀ (e : Option RdErr) (rest : RdScript) (acc : Nat),
      readFromLoop bs m front tl ((d, e) :: rest) acc =
        match e with
        | some RdErr.eof => ((m2, front2 ++ [tl2]), acc + n, none)
        | some (RdErr.fail k) => ((m2, front2 ++ [tl2]), acc + n, some k)
        | none => readFromLoop bs m2 front2 tl2 rest (acc + n)) ∧
    contents m2 (front2 ++ [tl2]) = contents m (front ++ [tl]) ++ d.take n ∧
    (d.take n).length = n ∧
    (∀ c ∈ front2, chunkWF bs m2 c) ∧ chunkWF bs m2 tl2 ∧
    ((front2 ++ [tl2]).map (·.blk)).Nodup ∧
    m2.refs = m.refs ∧ m2.freed = m.freed ∧
    m.blocks.length ≤ m2.blocks.length ∧
    (∀ i, i < m.blocks.length → (i ≠ tl.blk ∨ writableB m tl = false) →
      m2.blocks.getD i [] = m.blocks.getD i []) ∧
    ((tl2.blk = tl.blk ∧ writableB m tl = true) ∨ m.blocks.length ≤ tl2.blk) := by
  by_cases hw : writableB m tl = true
  · -- the current tail is writable: ingest into its free capacity
    have hcap : tl.off + tl.len < (m.blocks.getD tl.blk []).length := by
      have h' := hw
      unfold writableB at h'
      rw [Bool.and_eq_true, decide_eq_true_eq] at h'
      exact h'.1
    obtain ⟨hbb, hbl, hbo, hbr⟩ := htl
    have hdisj : ∀ c ∈ front, c.blk ≠ tl.blk := by
      intro c hc heq
      rw [List.map_append] at hnd
      rcases List.nodup_append.1 hnd with ⟨-, -, hdj⟩
      exact hdj (List.mem_map.2 ⟨c, hc, rfl⟩) (by simp [heq])
    set n := min d.length ((m.blocks.getD tl.blk []).length - tl.off - tl.len) with hn
    set q := d.take n with hqdef
    set m2 := appendBytes m tl q with hm2
    set tl2 : DataChunk := { tl with len := tl.len + n } with htl2
    have hnle : n ≤ d.length := by
      rw [hn]
      exact Nat.min_le_left _ _
    have hqlen : q.length = n := by
      rw [hqdef, List.length_take]
      omega
    have hqfit : tl.off + tl.len + q.length ≤ (m.blocks.getD tl.blk []).length := by
      rw [hqlen, hn]
      have := Nat.min_le_right d.length ((m.blocks.getD tl.blk []).length - tl.off - tl.len)
      omega
    refine ⟨m2, front, tl2, n, ?_, ?_, hqlen, ?_, ?_, ?_, ?_, ?_, ?_, ?_, Or.inl ⟨rfl, hw⟩⟩
    · intro e rest acc
      cases e with
      | none => simp only [readFromLoop, hw, if_true]
      | some err =>
          cases err with
          | eof => simp only [readFromLoop, hw, if_true]
          | fail k => simp only [readFromLoop, hw, if_true]
    · rw [contents_append, contents_append, contents_single, contents_single]
      have hfr : contents m2 front = contents m front := by
        apply contents_congr
        intro c hc
        rw [hm2]
        exact chunkView_appendBytes_other m tl q c (hdisj c hc)
      have htv : chunkView m2 tl2 = chunkView m tl ++ q := by
        have h := chunkView_appendBytes_self m tl q hbb (by omega)
        rw [hm2, show tl2 = { tl with len := tl.len + q.length } by rw [htl2, hqlen]]
        exact h
      rw [hfr, htv, hqdef, List.append_assoc]
    · intro c hc
      rw [hm2]
      exact chunkWF_appendBytes hqfit (hfront c hc)
    · refine ⟨?_, ?_, ?_, hbr⟩
      · rw [hm2, appendBytes_length]
        exact hbb
      · rw [hm2, appendBytes_getD_len _ _ _ _ hqfit]
        exact hbl
      · show tl.off + (tl.len + n) ≤ bs
        rw [hn]
        have := Nat.min_le_right d.length ((m.blocks.getD tl.blk []).length - tl.off - tl.len)
        omega
    · have he : (front ++ [tl2]).map (·.blk) = (front ++ [tl]).map (·.blk) := by
        simp [htl2]
      rw [he]
      exact hnd
    · rw [hm2, appendBytes_refs]
    · rw [hm2, appendBytes_freed]
    · rw [hm2, appendBytes_length]
    · intro i hi hcond
      have hine : i ≠ tl.blk := by
        rcases hcond with h | h
        · exact h
        · rw [hw] at h
          cases h
      rw [hm2, appendBytes_getD_other _ _ _ _ hine]
  · -- the tail is full or shared: acquire a fresh chunk and ingest into it
    have hwf : writableB m tl = false := by
      rw [Bool.not_eq_true] at hw
      exact hw
    have hgetAlen : ((newDataChunk bs m).1.blocks.getD (newDataChunk bs m).2.blk []).length = bs := by
      show (((m.blocks ++ [List.replicate bs 0]).getD m.blocks.length [])).length = bs
      rw [getD_snoc_self]
      exact List.length_replicate bs 0
    have hbltA : ∀ c ∈ front ++ [tl], c.blk < m.blocks.length := by
      intro c hc
      rcases List.mem_append.1 hc with h | h
      · exact (hfront c h).1
      · rw [List.mem_singleton.1 h]
        exact htl.1
    have hne : ∀ c ∈ front ++ [tl], c.blk ≠ (newDataChunk bs m).2.blk :=
      fun c hc => Nat.ne_of_lt (hbltA c hc)
    set mA := (newDataChunk bs m).1 with hmA
    set cA := (newDataChunk bs m).2 with hcA
    set n := min d.length ((mA.blocks.getD cA.blk []).length - cA.off - cA.len) with hn
    set q := d.take n with hqdef
    set m2 := appendBytes mA cA q with hm2
    set tl2 : DataChunk := { cA with len := cA.len + n } with htl2
    have hnle : n ≤ d.length := by
      rw [hn]
      exact Nat.min_le_left _ _
    have hqlen : q.length = n := by
      rw [hqdef, List.length_take]
      omega
    have hqfit : cA.off + cA.len + q.length ≤ (mA.blocks.getD cA.blk []).length := by
      rw [show cA.off = 0 from rfl, show cA.len = 0 from rfl, hqlen, hn]
      have := Nat.min_le_right d.length ((mA.blocks.getD cA.blk []).length - cA.off - cA.len)
      simp only [show cA.off = 0 from rfl, show cA.len = 0 from rfl] at this ⊢
      omega
    have hfrontA : ∀ c ∈ front ++ [tl], chunkWF bs m2 c := by
      intro c hc
      rw [hm2]
      apply chunkWF_appendBytes hqfit
      rw [hmA]
      apply chunkWF_newBlock
      rcases List.mem_append.1 hc with h | h
      · exact hfront c h
      · rw [List.mem_singleton.1 h]
        exact htl
    refine ⟨m2, front ++ [tl], tl2, n, ?_, ?_, hqlen, hfrontA, ?_, ?_, ?_, ?_, ?_, ?_, Or.inr (le_of_eq rfl)⟩
    · intro e rest acc
      cases e with
      | none => simp only [readFromLoop, hwf, if_false, Bool.false_eq_true]
      | some err =>
          cases err with
          | eof => simp only [readFromLoop, hwf, if_false, Bool.false_eq_true]
          | fail k => simp only [readFromLoop, hwf, if_false, Bool.false_eq_true]
    · have hfr : contents m2 (front ++ [tl]) = contents m (front ++ [tl]) := by
        apply contents_congr
        intro c hc
        rw [hm2, chunkView_appendBytes_other mA cA q c (hne c hc), hmA]
        exact chunkView_newBlock m _ c (hbltA c hc)
      have hcAview : chunkView mA cA = [] := by
        unfold chunkView
        rw [show cA.len = 0 from rfl]
        exact List.take_zero _
      have htv : chunkView m2 tl2 = q := by
        have h := chunkView_appendBytes_self mA cA q (by rw [show cA.blk = m.blocks.length from rfl, hmA]; simp [newDataChunk]) (by omega)
        rw [hcAview] at h
        rw [hm2, show tl2 = { cA with len := cA.len + q.length } by rw [htl2, hqlen], h]
        simp
      rw [contents_append, contents_single, hfr, htv, hqdef]
    · refine ⟨?_, ?_, ?_, ?_⟩
      · rw [hm2, appendBytes_length, hmA]
        show cA.blk < (m.blocks ++ [List.replicate bs 0]).length
        rw [show cA.blk = m.blocks.length from rfl, List.length_append]
        simp
      · rw [hm2, appendBytes_getD_len _ _ _ _ hqfit]
        exact hgetAlen
      · show cA.off + (cA.len + n) ≤ bs
        rw [show cA.off = 0 from rfl, show cA.len = 0 from rfl, hn]
        have := Nat.min_le_right d.length ((mA.blocks.getD cA.blk []).length - cA.off - cA.len)
        rw [hgetAlen] at this
        simp only [show cA.off = 0 from rfl, show cA.len = 0 from rfl] at this
        omega
      · intro i hi
        rw [show tl2.ref = none from rfl] at hi
        cases hi
    · rw [List.map_append]
      refine List.Nodup.append hnd (List.nodup_singleton _) ?_
      intro x hx hx2
      have hxe : x = tl2.blk := by
        rcases List.mem_singleton.1 hx2 with h
        simp [h]
      rw [hxe] at hx
      rcases List.mem_map.1 hx with ⟨c, hc, hcx⟩
      have h1 : c.blk < m.blocks.length := hbltA c hc
      have h2 : tl2.blk = m.blocks.length := rfl
      omega
    · rw [hm2, appendBytes_refs, hmA]
      rfl
    · rw [hm2, appendBytes_freed, hmA]
      rfl
    · have : m2.blocks.length = mA.blocks.length := by
        rw [hm2, appendBytes_length]
      rw [this, hmA]
      show m.blocks.length ≤ (m.blocks ++ [List.replicate bs 0]).length
      rw [List.length_append]
      simp
    · intro i hi _
      have hiA : i ≠ cA.blk := by
        rw [show cA.blk = m.blocks.length from rfl]
        omega
      rw [hm2, appendBytes_getD_other _ _ _ _ hiA, hmA]
      show (m.blocks ++ [List.replicate bs 0]).getD i [] = m.blocks.getD i []
      exact getD_append_left _ _ _ _ hi

/-- Buffer.ReadFrom's loop appends the ingested bytes to the content, returns the
accumulated count, passes the source's terminal error through `rdScriptErr`
(io.EOF becomes success, any other failure is returned unchanged), preserves
well-formedness, touches neither refcount cells nor the freed list, and mutates
no pre-existing block other than (possibly) the writable tail's. -/
theorem readFromLoop_spec (bs : Nat) (script : RdScript) :
    ∀ (m : Mem) (front : List DataChunk) (tl : DataChunk) (acc : Nat),
    (∀ c ∈ front, chunkWF bs m c) → chunkWF bs m tl →
    ((front ++ [tl]).map (·.blk)).Nodup →
    ∃ q : List Nat,
      contents (readFromLoop bs m front tl script acc).1.1
          (readFromLoop bs m front tl script acc).1.2 =
        contents m (front ++ [tl]) ++ q ∧
      (readFromLoop bs m front tl script acc).2.1 = acc + q.length ∧
      (readFromLoop bs m front tl script acc).2.2 = rdScriptErr script ∧
      WF bs (readFromLoop bs m front tl script acc).1.1
        (readFromLoop bs m front tl script acc).1.2 ∧
      (readFromLoop bs m front tl script acc).1.1.refs = m.refs ∧
      (readFromLoop bs m front tl script acc).1.1.freed = m.freed ∧
      m.blocks.length ≤ (readFromLoop bs m front tl script acc).1.1.blocks.length ∧
      (∀ i, i < m.blocks.length → (i ≠ tl.blk ∨ writableB m tl = false) →
        (readFromLoop bs m front tl script acc).1.1.blocks.getD i [] = m.blocks.getD i []) := by
  induction script with
  | nil =>
      intro m front tl acc hfront htl hnd
      refine ⟨[], by simp [readFromLoop], by simp [readFromLoop], by simp [readFromLoop, rdScriptErr], ?_, rfl, rfl, le_refl _, fun i _ _ => rfl⟩
      show WF bs m (front ++ [tl])
      refine ⟨?_, hnd⟩
      intro c hc
      rcases List.mem_append.1 hc with h | h
      · exact hfront c h
      · rw [List.mem_singleton.1 h]
        exact htl
  | cons entry rest ih =>
      intro m front tl acc hfront htl hnd
      obtain ⟨d, e⟩ := entry
      obtain ⟨m2, front2, tl2, n, hEq, hCont, hLen, hFront2, hTl2, hNd2, hRefs, hFreed, hBlkLen, hFoot, hBlk⟩ :=
        rfStep_spec bs m front tl d hfront htl hnd
      have hcond2 : ∀ i, i < m.blocks.length → (i ≠ tl.blk ∨ writableB m tl = false) →
          (i ≠ tl2.blk ∨ writableB m2 tl2 = false) := by
        intro i hi hcond
        rcases hBlk with ⟨hbe, hwt⟩ | hge
        · left
          rw [hbe]
          rcases hcond with h | h
          · exact h
          · rw [hwt] at h
            cases h
        · left
          omega
      cases e with
      | none =>
          rw [hEq none rest acc]
          obtain ⟨q', I1, I2, I3, I4, I5, I6, I7, I8⟩ := ih m2 front2 tl2 (acc + n) hFront2 hTl2 hNd2
          refine ⟨d.take n ++ q', ?_, ?_, ?_, I4, ?_, ?_, ?_, ?_⟩
          · rw [I1, hCont, List.append_assoc]
          · rw [I2, List.length_append, hLen]
            omega
          · rw [I3]
            rfl
          · rw [I5, hRefs]
          · rw [I6, hFreed]
          · exact le_trans hBlkLen I7
          · intro i hi hcond
            rw [I8 i (by omega) (hcond2 i hi hcond), hFoot i hi hcond]
      | some err =>
          cases err with
          | eof =>
              rw [hEq (some RdErr.eof) rest acc]
              refine ⟨d.take n, hCont, by rw [hLen], rfl, ?_, hRefs, hFreed, hBlkLen, hFoot⟩
              show WF bs m2 (front2 ++ [tl2])
              refine ⟨?_, hNd2⟩
              intro c hc
              rcases List.mem_append.1 hc with h | h
              · exact hFront2 c h
              · rw [List.mem_singleton.1 h]
                exact hTl2
          | fail k =>
              rw [hEq (some (RdErr.fail k)) rest acc]
              refine ⟨d.take n, hCont, by rw [hLen], rfl, ?_, hRefs, hFreed, hBlkLen, hFoot⟩
              show WF bs m2 (front2 ++ [tl2])
              refine ⟨?_, hNd2⟩
              intro c hc
              rcases List.mem_append.1 hc with h | h
              · exact hFront2 c h
              · rw [List.mem_singleton.1 h]
                exact hTl2

theorem bufReadFrom_eq_none (bs : Nat) (m : Mem) (bufs : List DataChunk) (script : RdScript)
    (hL : bufs.getLast? = none) :
    bufReadFrom bs m bufs script =
      readFromLoop bs (newDataChunk bs m).1 [] (newDataChunk bs m).2 script 0 := by
  simp only [bufReadFrom, hL]

theorem bufReadFrom_eq_some (bs : Nat) (m : Mem) (bufs : List DataChunk) (script : RdScript)
    (tl : DataChunk) (hL : bufs.getLast? = some tl) :
    bufReadFrom bs m bufs script = readFromLoop bs m bufs.dropLast tl script 0 := by
  simp only [bufReadFrom, hL]

/-- Buffer.ReadFrom at the call level: ingests some byte sequence `q`, returns
`(|q|, rdScriptErr script)`, and has the same preservation properties as the loop. -/
theorem bufReadFrom_spec (bs : Nat) (m : Mem) (bufs : List DataChunk) (script : RdScript)
    (hwf : WF bs m bufs) :
    ∃ q : List Nat,
      contents (bufReadFrom bs m bufs script).1.1 (bufReadFrom bs m bufs script).1.2 =
        contents m bufs ++ q ∧
      (bufReadFrom bs m bufs script).2.1 = q.length ∧
      (bufReadFrom bs m bufs script).2.2 = rdScriptErr script ∧
      WF bs (bufReadFrom bs m bufs script).1.1 (bufReadFrom bs m bufs script).1.2 ∧
      (bufReadFrom bs m bufs script).1.1.refs = m.refs ∧
      (bufReadFrom bs m bufs script).1.1.freed = m.freed ∧
      m.blocks.length ≤ (bufReadFrom bs m bufs script).1.1.blocks.length ∧
      (∀ i, i < m.blocks.length →
        (∀ h : bufs ≠ [], i ≠ (bufs.getLast h).blk ∨ writableB m (bufs.getLast h) = false) →
        (bufReadFrom bs m bufs script).1.1.blocks.getD i [] = m.blocks.getD i []) := by
  obtain ⟨hod, hnd⟩ := hwf
  cases hL : bufs.getLast? with
  | none =>
      have hnil : bufs = [] := List.getLast?_eq_none_iff.1 hL
      subst hnil
      rw [bufReadFrom_eq_none bs m [] script hL]
      obtain ⟨q, I1, I2, I3, I4, I5, I6, I7, I8⟩ :=
        readFromLoop_spec bs script (newDataChunk bs m).1 [] (newDataChunk bs m).2 0
          (fun c hc => nomatch hc) (chunkWF_fresh bs m) (by simp)
      refine ⟨q, ?_, by rw [I2]; omega, I3, I4, ?_, ?_, ?_, ?_⟩
      · rw [I1]
        have hv : chunkView (newDataChunk bs m).1 (newDataChunk bs m).2 = [] := by
          unfold chunkView
          rw [show (newDataChunk bs m).2.len = 0 from rfl]
          exact List.take_zero _
        rw [List.nil_append, contents_single, hv, contents_nil, List.nil_append]
      · rw [I5]
        rfl
      · rw [I6]
        rfl
      · refine le_trans ?_ I7
        show m.blocks.length ≤ (m.blocks ++ [List.replicate bs 0]).length
        rw [List.length_append]
        simp
      · intro i hi _
        have hi1 : i < (newDataChunk bs m).1.blocks.length := by
          show i < (m.blocks ++ [List.replicate bs 0]).length
          rw [List.length_append]
          simp only [List.length_cons, List.length_nil]
          omega
        have hne : i ≠ (newDataChunk bs m).2.blk := by
          rw [show (newDataChunk bs m).2.blk = m.blocks.length from rfl]
          omega
        rw [I8 i hi1 (Or.inl hne)]
        show (m.blocks ++ [List.replicate bs 0]).getD i [] = m.blocks.getD i []
        exact getD_append_left _ _ _ _ hi
  | some tl =>
      have hne : bufs ≠ [] := by
        intro h
        rw [h] at hL
        cases hL
      have htl_eq : tl = bufs.getLast hne := by
        have h2 := List.getLast?_eq_getLast bufs hne
        rw [hL] at h2
        exact Option.some.inj h2
      have hdecomp : bufs.dropLast ++ [tl] = bufs := by
        rw [htl_eq]
        exact List.dropLast_append_getLast hne
      rw [bufReadFrom_eq_some bs m bufs script tl hL]
      obtain ⟨q, I1, I2, I3, I4, I5, I6, I7, I8⟩ :=
        readFromLoop_spec bs script m bufs.dropLast tl 0
          (fun c hc => hod c (List.dropLast_sublist bufs |>.mem hc))
          (hod tl (htl_eq ▸ List.getLast_mem hne))
          (by rw [hdecomp]; exact hnd)
      refine ⟨q, ?_, by rw [I2]; omega, I3, I4, I5, I6, I7, ?_⟩
      · rw [I1, hdecomp]
      · intro i hi hcond
        have := hcond hne
        rw [← htl_eq] at this
        exact I8 i hi this

theorem dropConsumed_spec (bs : Nat) : ∀ (bufs : List DataChunk) (m : Mem) (n : Nat),
    WF bs m bufs → n ≤ bufLen bufs →
    contents (dropConsumed m n bufs).1 (dropConsumed m n bufs).2 = (contents m bufs).drop n ∧
    bufLen (dropConsumed m n bufs).2 = bufLen bufs - n ∧
    WF bs (dropConsumed m n bufs).1 (dropConsumed m n bufs).2 ∧
    (dropConsumed m n bufs).1.blocks = m.blocks := by
  intro bufs
  induction bufs with
  | nil =>
      intro m n hwf hn
      have hn0 : n = 0 := by
        simp [bufLen] at hn
        omega
      subst hn0
      exact ⟨by simp [dropConsumed, contents_nil], by simp [dropConsumed, bufLen], hwf, rfl⟩
  | cons c rest ih =>
      intro m n hwf hn
      obtain ⟨hcwf, hrest, hnotin⟩ := WF_cons.1 hwf
      have hviewlen : (chunkView m c).length = c.len := chunkView_len_of_WF hcwf
      have hrest1 : WF bs (returnDataChunk m c) rest :=
        ⟨fun d hd => chunkWF_returnDataChunk (hrest.1 d hd), hrest.2⟩
      by_cases hcn : c.len ≤ n
      · by_cases hz : n - c.len = 0
        · have hnc : n = c.len := by omega
          have hb : dropConsumed m n (c :: rest) = (returnDataChunk m c, rest) := by
            simp only [dropConsumed, if_pos hcn, if_pos hz]
          rw [hb]
          subst hnc
          refine ⟨?_, ?_, hrest1, returnDataChunk_blocks m c⟩
          · rw [contents_returnDataChunk, contents_cons, List.drop_left' hviewlen]
          · show bufLen rest = bufLen (c :: rest) - c.len
            rw [bufLen_cons]
            omega
        · have hb : dropConsumed m n (c :: rest) =
              dropConsumed (returnDataChunk m c) (n - c.len) rest := by
            simp only [dropConsumed, if_pos hcn, if_neg hz]
          rw [hb]
          have hnr : n - c.len ≤ bufLen rest := by
            rw [bufLen_cons] at hn
            omega
          obtain ⟨I1, I2, I3, I4⟩ := ih (returnDataChunk m c) (n - c.len) hrest1 hnr
          refine ⟨?_, ?_, I3, by rw [I4, returnDataChunk_blocks]⟩
          · rw [I1, contents_returnDataChunk, contents_cons]
            conv_rhs => rw [show n = c.len + (n - c.len) by omega]
            rw [drop_append_exact _ _ _ _ hviewlen]
          · rw [I2, bufLen_cons]
            omega
      · have hb : dropConsumed m n (c :: rest) =
            (m, { c with off := c.off + n, len := c.len - n } :: rest) := by
          simp only [dropConsumed, if_neg hcn]
        rw [hb]
        refine ⟨?_, ?_, ?_, rfl⟩
        · rw [contents_cons, contents_cons, chunkView_trim,
            List.drop_append_of_le_length (by omega)]
        · rw [bufLen_cons, bufLen_cons]
          simp only
          omega
        · refine WF_cons.2 ⟨?_, hrest, ?_⟩
          · obtain ⟨h1, h2, h3, h4⟩ := hcwf
            exact ⟨h1, h2, by simp only; omega, h4⟩
          · simpa using hnotin

/-- Buffer.WriteTo's per-chunk loop: drains a prefix of the content of total size
`w`, adds `w` to the running count, and preserves well-formedness and blocks. -/
theorem writeToLoop_spec (bs : Nat) (script : WrScript) :
    ∀ (bufs : List DataChunk) (m : Mem) (acc : Nat), WF bs m bufs →
    ∃ w : Nat,
      (writeToLoop m bufs script acc).2.2.1 = acc + w ∧ w ≤ bufLen bufs ∧
      bufLen (writeToLoop m bufs script acc).2.1 = bufLen bufs - w ∧
      contents (writeToLoop m bufs script acc).1 (writeToLoop m bufs script acc).2.1 =
        (contents m bufs).drop w ∧
      WF bs (writeToLoop m bufs script acc).1 (writeToLoop m bufs script acc).2.1 ∧
      (writeToLoop m bufs script acc).1.blocks = m.blocks := by
  induction script with
  | nil =>
      intro bufs m acc hwf
      refine ⟨0, ?_⟩
      cases bufs with
      | nil => exact ⟨by simp [writeToLoop], by simp, by simp [writeToLoop], by simp [writeToLoop], hwf, rfl⟩
      | cons c rest => exact ⟨by simp [writeToLoop], by simp, by simp [writeToLoop], by simp [writeToLoop], hwf, rfl⟩
  | cons entry srest ih =>
      intro bufs m acc hwf
      obtain ⟨a, e⟩ := entry
      cases bufs with
      | nil =>
          exact ⟨0, by simp [writeToLoop], by simp, by simp [writeToLoop], by simp [writeToLoop], hwf, rfl⟩
      | cons c rest =>
          have hnle : min c.len a ≤ bufLen (c :: rest) := by
            rw [bufLen_cons]
            have := Nat.min_le_left c.len a
            omega
          obtain ⟨D1, D2, D3, D4⟩ :=
            dropConsumed_spec bs (c :: rest) m (min c.len a) hwf hnle
          cases e with
          | some k =>
              have hb : writeToLoop m (c :: rest) ((a, some k) :: srest) acc =
                  ((dropConsumed m (min c.len a) (c :: rest)).1,
                   (dropConsumed m (min c.len a) (c :: rest)).2,
                   acc + min c.len a, some k, 1) := by
                simp only [writeToLoop]
              rw [hb]
              exact ⟨min c.len a, rfl, hnle, D2, D1, D3, D4⟩
          | none =>
              have hb : writeToLoop m (c :: rest) ((a, none) :: srest) acc =
                  ((writeToLoop (dropConsumed m (min c.len a) (c :: rest)).1
                      (dropConsumed m (min c.len a) (c :: rest)).2 srest (acc + min c.len a)).1,
                   (writeToLoop (dropConsumed m (min c.len a) (c :: rest)).1
                      (dropConsumed m (min c.len a) (c :: rest)).2 srest (acc + min c.len a)).2.1,
                   (writeToLoop (dropConsumed m (min c.len a) (c :: rest)).1
                      (dropConsumed m (min c.len a) (c :: rest)).2 srest (acc + min c.len a)).2.2.1,
                   (writeToLoop (dropConsumed m (min c.len a) (c :: rest)).1
                      (dropConsumed m (min c.len a) (c :: rest)).2 srest (acc + min c.len a)).2.2.2.1,
                   (writeToLoop (dropConsumed m (min c.len a) (c :: rest)).1
                      (dropConsumed m (min c.len a) (c :: rest)).2 srest (acc + min c.len a)).2.2.2.2 + 1) := by
                simp only [writeToLoop]
              obtain ⟨w', I1, I2, I3, I4, I5, I6⟩ :=
                ih (dropConsumed m (min c.len a) (c :: rest)).2
                  (dropConsumed m (min c.len a) (c :: rest)).1 (acc + min c.len a) D3
              rw [hb]
              refine ⟨min c.len a + w', ?_, ?_, ?_, ?_, I5, ?_⟩
              · show (writeToLoop _ _ srest (acc + min c.len a)).2.2.1 = acc + (min c.len a + w')
                rw [I1]
                omega
              · rw [bufLen_cons] at *
                omega
              · show bufLen (writeToLoop _ _ srest (acc + min c.len a)).2.1 =
                  bufLen (c :: rest) - (min c.len a + w')
                rw [I3, D2]
                omega
              · show contents (writeToLoop _ _ srest (acc + min c.len a)).1
                    (writeToLoop _ _ srest (acc + min c.len a)).2.1 =
                  (contents m (c :: rest)).drop (min c.len a + w')
                rw [I4, D1, List.drop_drop]
              · show (writeToLoop _ _ srest (acc + min c.len a)).1.blocks = m.blocks
                rw [I6, D4]

theorem rcWrite_cons (m : Mem) (bufs : List DataChunk) (n0 : Nat) (e : Option WvErr)
    (rest : WvScript) (acc : Nat) :
    rcWrite m bufs ((n0, e) :: rest) acc =
      (let n := min n0 (bufLen bufs)
       let Q := if 0 < n then dropConsumed m n bufs else (m, bufs)
       let we : Option Nat :=
         match e with
         | some (WvErr.fail k) => some k
         | _ => none
       if Q.2.isEmpty || we.isSome then (Q.1, Q.2, acc + n, we, rest)
       else rcWrite Q.1 Q.2 rest (acc + n)) := rfl

/-- One `rc.Write` round of the writev fast path drains some prefix of size `w`,
adds `w` to the count, and preserves well-formedness and block contents. -/
theorem rcWrite_spec (bs : Nat) (script : WvScript) :
    ∀ (m : Mem) (bufs : List DataChunk) (acc : Nat), WF bs m bufs →
    ∃ w : Nat,
      (rcWrite m bufs script acc).2.2.1 = acc + w ∧ w ≤ bufLen bufs ∧
      bufLen (rcWrite m bufs script acc).2.1 = bufLen bufs - w ∧
      contents (rcWrite m bufs script acc).1 (rcWrite m bufs script acc).2.1 =
        (contents m bufs).drop w ∧
      WF bs (rcWrite m bufs script acc).1 (rcWrite m bufs script acc).2.1 ∧
      (rcWrite m bufs script acc).1.blocks = m.blocks := by
  induction script with
  | nil =>
      intro m bufs acc hwf
      exact ⟨0, by simp [rcWrite], by simp, by simp [rcWrite], by simp [rcWrite], hwf, rfl⟩
  | cons entry rest ih =>
      intro m bufs acc hwf
      obtain ⟨n0, e⟩ := entry
      rw [rcWrite_cons]
      simp only
      set n := min n0 (bufLen bufs) with hn
      set Q := (if 0 < n then dropConsumed m n bufs else (m, bufs)) with hQdef
      set we : Option Nat :=
        (match e with
         | some (WvErr.fail k) => some k
         | _ => none) with hwe
      have hnle : n ≤ bufLen bufs := Nat.min_le_right _ _
      have hQ : contents Q.1 Q.2 = (contents m bufs).drop n ∧
          bufLen Q.2 = bufLen bufs - n ∧ WF bs Q.1 Q.2 ∧ Q.1.blocks = m.blocks := by
        by_cases h0 : 0 < n
        · rw [hQdef, if_pos h0]
          obtain ⟨D1, D2, D3, D4⟩ := dropConsumed_spec bs bufs m n hwf hnle
          exact ⟨D1, D2, D3, D4⟩
        · rw [hQdef, if_neg h0]
          have hz : n = 0 := by omega
          refine ⟨?_, ?_, hwf, rfl⟩
          · show contents m bufs = (contents m bufs).drop n
            rw [hz, List.drop_zero]
          · show bufLen bufs = bufLen bufs - n
            omega
      obtain ⟨Q1, Q2, Q3, Q4⟩ := hQ
      by_cases hdone : (Q.2.isEmpty || we.isSome) = true
      · rw [if_pos hdone]
        exact ⟨n, rfl, hnle, Q2, Q1, Q3, Q4⟩
      · rw [if_neg hdone]
        obtain ⟨w', I1, I2, I3, I4, I5, I6⟩ := ih Q.1 Q.2 (acc + n) Q3
        refine ⟨n + w', ?_, ?_, ?_, ?_, I5, ?_⟩
        · rw [I1]
          omega
        · omega
        · rw [I3, Q2]
          omega
        · rw [I4, Q1, List.drop_drop]
        · rw [I6, Q4]

theorem writevOuter_cons (fuel : Nat) (m : Mem) (bufs : List DataChunk)
    (entry : Nat × Option WvErr) (srest : WvScript) (acc : Nat) :
    writevOuter (fuel + 1) m bufs (entry :: srest) acc =
      (if bufs.length ≤ 1 then ((m, bufs), acc, none)
       else
         if (rcWrite m bufs (entry :: srest) acc).2.2.2.1.isSome then
           (((rcWrite m bufs (entry :: srest) acc).1,
             (rcWrite m bufs (entry :: srest) acc).2.1),
            (rcWrite m bufs (entry :: srest) acc).2.2.1, none)
         else
           writevOuter fuel (rcWrite m bufs (entry :: srest) acc).1
             (rcWrite m bufs (entry :: srest) acc).2.1
             (rcWrite m bufs (entry :: srest) acc).2.2.2.2
             (rcWrite m bufs (entry :: srest) acc).2.2.1) := rfl

/-- The outer writev loop drains some prefix of size `w`, reports `acc + w`, and —
because the source returns `rc.Write`'s own error rather than the writev error —
always reports a nil error. -/
theorem writevOuter_spec (bs : Nat) (fuel : Nat) :
    ∀ (m : Mem) (bufs : List DataChunk) (script : WvScript) (acc : Nat), WF bs m bufs →
    ∃ w : Nat,
      (writevOuter fuel m bufs script acc).2.1 = acc + w ∧ w ≤ bufLen bufs ∧
      bufLen (writevOuter fuel m bufs script acc).1.2 = bufLen bufs - w ∧
      contents (writevOuter fuel m bufs script acc).1.1
          (writevOuter fuel m bufs script acc).1.2 =
        (contents m bufs).drop w ∧
      WF bs (writevOuter fuel m bufs script acc).1.1
        (writevOuter fuel m bufs script acc).1.2 ∧
      (writevOuter fuel m bufs script acc).1.1.blocks = m.blocks ∧
      (writevOuter fuel m bufs script acc).2.2 = none := by
  induction fuel with
  | zero =>
      intro m bufs script acc hwf
      exact ⟨0, by simp [writevOuter], by simp, by simp [writevOuter],
        by simp [writevOuter], hwf, rfl, rfl⟩
  | succ fuel ih =>
      intro m bufs script acc hwf
      cases script with
      | nil =>
          exact ⟨0, by simp [writevOuter], by simp, by simp [writevOuter],
            by simp [writevOuter], hwf, rfl, rfl⟩
      | cons entry srest =>
          rw [writevOuter_cons]
          by_cases hle : bufs.length ≤ 1
          · rw [if_pos hle]
            exact ⟨0, by simp, by simp, by simp, by simp, hwf, rfl, rfl⟩
          · rw [if_neg hle]
            obtain ⟨w1, R1, R2, R3, R4, R5, R6⟩ :=
              rcWrite_spec bs (entry :: srest) m bufs acc hwf
            by_cases hsome : (rcWrite m bufs (entry :: srest) acc).2.2.2.1.isSome = true
            · rw [if_pos hsome]
              exact ⟨w1, R1, R2, R3, R4, R5, R6, rfl⟩
            · rw [if_neg hsome]
              obtain ⟨w2, I1, I2, I3, I4, I5, I6, I7⟩ :=
                ih (rcWrite m bufs (entry :: srest) acc).1
                  (rcWrite m bufs (entry :: srest) acc).2.1
                  (rcWrite m bufs (entry :: srest) acc).2.2.2.2
                  (rcWrite m bufs (entry :: srest) acc).2.2.1 R5
              refine ⟨w1 + w2, ?_, ?_, ?_, ?_, I5, ?_, I7⟩
              · rw [I1, R1]
                omega
              · omega
              · rw [I3, R3]
                omega
              · rw [I4, R4, List.drop_drop]
              · rw [I6, R6]

/-- Buffer.tryToWritev drains some prefix of size `w`, reports `(w, nil)` — nil even
when the underlying writev failed — and preserves well-formedness and blocks. -/
theorem tryToWritev_spec (bs : Nat) (m : Mem) (bufs : List DataChunk) (wv : Option WvScript)
    (hwf : WF bs m bufs) :
    ∃ w : Nat,
      (tryToWritev m bufs wv).2.1 = w ∧ w ≤ bufLen bufs ∧
      bufLen (tryToWritev m bufs wv).1.2 = bufLen bufs - w ∧
      contents (tryToWritev m bufs wv).1.1 (tryToWritev m bufs wv).1.2 =
        (contents m bufs).drop w ∧
      WF bs (tryToWritev m bufs wv).1.1 (tryToWritev m bufs wv).1.2 ∧
      (tryToWritev m bufs wv).1.1.blocks = m.blocks ∧
      (tryToWritev m bufs wv).2.2 = none := by
  cases wv with
  | none =>
      exact ⟨0, rfl, by simp, by simp [tryToWritev], by simp [tryToWritev], hwf, rfl, rfl⟩
  | some script =>
      obtain ⟨w, I1, I2, I3, I4, I5, I6, I7⟩ :=
        writevOuter_spec bs (script.length + 1) m bufs script 0 hwf
      exact ⟨w, by rw [show tryToWritev m bufs (some script) = writevOuter (script.length + 1) m bufs script 0 from rfl, I1]; omega,
        I2, I3, I4, I5, I6, I7⟩

theorem bufWriteTo_eq (m : Mem) (bufs : List DataChunk) (wv : Option WvScript)
    (script : WrScript) (herr : (tryToWritev m bufs wv).2.2 = none) :
    bufWriteTo m bufs wv script =
      (((writeToLoop (tryToWritev m bufs wv).1.1 (tryToWritev m bufs wv).1.2 script
          (tryToWritev m bufs wv).2.1).1,
        (writeToLoop (tryToWritev m bufs wv).1.1 (tryToWritev m bufs wv).1.2 script
          (tryToWritev m bufs wv).2.1).2.1),
       ((writeToLoop (tryToWritev m bufs wv).1.1 (tryToWritev m bufs wv).1.2 script
          (tryToWritev m bufs wv).2.1).2.2.1,
        (writeToLoop (tryToWritev m bufs wv).1.1 (tryToWritev m bufs wv).1.2 script
          (tryToWritev m bufs wv).2.1).2.2.2.1),
       (writeToLoop (tryToWritev m bufs wv).1.1 (tryToWritev m bufs wv).1.2 script
          (tryToWritev m bufs wv).2.1).2.2.2.2) := by
  rcases hT : tryToWritev m bufs wv with ⟨⟨m1, b1⟩, n1, e1⟩
  rw [hT] at herr
  obtain rfl : e1 = none := herr
  unfold bufWriteTo
  rw [hT]

/-- Buffer.WriteTo drains a prefix of total size `w` (vectored part plus per-chunk
part), returns `w` as its count, and preserves well-formedness and blocks. -/
theorem bufWriteTo_spec (bs : Nat) (m : Mem) (bufs : List DataChunk) (wv : Option WvScript)
    (script : WrScript) (hwf : WF bs m bufs) :
    ∃ w : Nat,
      (bufWriteTo m bufs wv script).2.1.1 = w ∧ w ≤ bufLen bufs ∧
      bufLen (bufWriteTo m bufs wv script).1.2 = bufLen bufs - w ∧
      contents (bufWriteTo m bufs wv script).1.1 (bufWriteTo m bufs wv script).1.2 =
        (contents m bufs).drop w ∧
      WF bs (bufWriteTo m bufs wv script).1.1 (bufWriteTo m bufs wv script).1.2 ∧
      (bufWriteTo m bufs wv script).1.1.blocks = m.blocks := by
  obtain ⟨w1, T1, T2, T3, T4, T5, T6, T7⟩ := tryToWritev_spec bs m bufs wv hwf
  rw [bufWriteTo_eq m bufs wv script T7]
  obtain ⟨w2, L1, L2, L3, L4, L5, L6⟩ :=
    writeToLoop_spec bs script (tryToWritev m bufs wv).1.2 (tryToWritev m bufs wv).1.1
      (tryToWritev m bufs wv).2.1 T5
  refine ⟨w1 + w2, ?_, ?_, ?_, ?_, L5, ?_⟩
  · show (writeToLoop _ _ script _).2.2.1 = w1 + w2
    rw [L1, T1]
  · omega
  · show bufLen (writeToLoop _ _ script _).2.1 = bufLen bufs - (w1 + w2)
    rw [L3, T3]
    omega
  · show contents (writeToLoop _ _ script _).1 (writeToLoop _ _ script _).2.1 =
      (contents m bufs).drop (w1 + w2)
    rw [L4, T4, List.drop_drop]
  · show (writeToLoop _ _ script _).1.blocks = m.blocks
    rw [L6, T6]

theorem foldl_returnDataChunk_blocks : ∀ (bufs : List DataChunk) (m : Mem),
    (bufs.foldl returnDataChunk m).blocks = m.blocks := by
  intro bufs
  induction bufs with
  | nil => intro m; rfl
  | cons c rest ih =>
      intro m
      rw [List.foldl_cons, ih, returnDataChunk_blocks]

theorem stepOp_read_eq (bs : Nat) (m : Mem) (bufs : List DataChunk) (k : Nat) :
    stepOp bs m bufs (BufOp.read k) =
      (((bufRead m bufs k).m, (bufRead m bufs k).bufs), 0, (bufRead m bufs k).cnt) := rfl

theorem stepOp_readFrom_eq (bs : Nat) (m : Mem) (bufs : List DataChunk) (s : RdScript) :
    stepOp bs m bufs (BufOp.readFrom s) =
      ((bufReadFrom bs m bufs s).1, (bufReadFrom bs m bufs s).2.1, 0) := rfl

theorem stepOp_writeTo_eq (bs : Nat) (m : Mem) (bufs : List DataChunk)
    (wv : Option WvScript) (s : WrScript) :
    stepOp bs m bufs (BufOp.writeTo wv s) =
      ((bufWriteTo m bufs wv s).1, 0, (bufWriteTo m bufs wv s).2.1.1) := rfl

theorem stepOp_bytes_eq (bs : Nat) (m : Mem) (bufs : List DataChunk) :
    stepOp bs m bufs BufOp.bytes =
      ((bufBytes m bufs).1, 0, (bufBytes m bufs).2.length) := rfl

/-- One operation preserves well-formedness and respects the length accounting:
new length + bytes consumed = old length + bytes appended. -/
theorem stepOp_spec (bs : Nat) (hbs : 0 < bs) (m : Mem) (bufs : List DataChunk)
    (op : BufOp) (hwf : WF bs m bufs) :
    WF bs (stepOp bs m bufs op).1.1 (stepOp bs m bufs op).1.2 ∧
    bufLen (stepOp bs m bufs op).1.2 + (stepOp bs m bufs op).2.2 =
      bufLen bufs + (stepOp bs m bufs op).2.1 := by
  have hlen : (contents m bufs).length = bufLen bufs := contents_len_of_WF hwf.1
  cases op with
  | write p =>
      obtain ⟨W1, W2, _⟩ := bufWrite_spec bs hbs m bufs p hwf
      refine ⟨W2, ?_⟩
      show bufLen (bufWrite bs m bufs p).1.2 + 0 = bufLen bufs + p.length
      have h2 : (contents (bufWrite bs m bufs p).1.1 (bufWrite bs m bufs p).1.2).length =
          bufLen (bufWrite bs m bufs p).1.2 := contents_len_of_WF W2.1
      rw [W1] at h2
      rw [List.length_append] at h2
      omega
  | read k =>
      obtain ⟨R1, R2, R3, R4, R5, R6⟩ := bufRead_spec bs m bufs k hwf
      rw [stepOp_read_eq]
      refine ⟨R4, ?_⟩
      show bufLen (bufRead m bufs k).bufs + (bufRead m bufs k).cnt = bufLen bufs + 0
      have h2 : (contents (bufRead m bufs k).m (bufRead m bufs k).bufs).length =
          bufLen (bufRead m bufs k).bufs := contents_len_of_WF R4.1
      rw [R3, List.length_drop, hlen] at h2
      rw [R2]
      omega
  | readFrom s =>
      obtain ⟨q, I1, I2, _, I4, _⟩ := bufReadFrom_spec bs m bufs s hwf
      rw [stepOp_readFrom_eq]
      refine ⟨I4, ?_⟩
      show bufLen (bufReadFrom bs m bufs s).1.2 + 0 = bufLen bufs + (bufReadFrom bs m bufs s).2.1
      have h2 : (contents (bufReadFrom bs m bufs s).1.1 (bufReadFrom bs m bufs s).1.2).length =
          bufLen (bufReadFrom bs m bufs s).1.2 := contents_len_of_WF I4.1
      rw [I1, List.length_append, hlen] at h2
      rw [I2]
      omega
  | writeTo wv s =>
      obtain ⟨w, T1, T2, T3, _, T5, _⟩ := bufWriteTo_spec bs m bufs wv s hwf
      rw [stepOp_writeTo_eq]
      refine ⟨T5, ?_⟩
      show bufLen (bufWriteTo m bufs wv s).1.2 + (bufWriteTo m bufs wv s).2.1.1 =
        bufLen bufs + 0
      rw [T1, T3]
      omega
  | bytes =>
      rw [stepOp_bytes_eq]
      refine ⟨⟨(fun c hc => nomatch hc), List.nodup_nil⟩, ?_⟩
      show bufLen [] + (contents m bufs).length = bufLen bufs + 0
      rw [hlen]
      simp [bufLen]
  | reset =>
      refine ⟨⟨(fun c hc => nomatch hc), List.nodup_nil⟩, ?_⟩
      show bufLen [] + bufLen bufs = bufLen bufs + 0
      simp [bufLen]

/-- Running a sequence of operations keeps the state well formed and satisfies
final length + total consumed = initial length + total appended. -/
theorem runOps_spec (bs : Nat) (hbs : 0 < bs) (ops : List BufOp) :
    ∀ (m : Mem) (bufs : List DataChunk), WF bs m bufs →
    WF bs (runOps bs (m, bufs) ops).1.1 (runOps bs (m, bufs) ops).1.2 ∧
    bufLen (runOps bs (m, bufs) ops).1.2 + (runOps bs (m, bufs) ops).2.2 =
      bufLen bufs + (runOps bs (m, bufs) ops).2.1 := by
  induction ops with
  | nil =>
      intro m bufs hwf
      exact ⟨hwf, by simp [runOps]⟩
  | cons op ops ih =>
      intro m bufs hwf
      obtain ⟨S1, S2⟩ := stepOp_spec bs hbs m bufs op hwf
      have hb : runOps bs (m, bufs) (op :: ops) =
          ((runOps bs (stepOp bs m bufs op).1 ops).1,
           (stepOp bs m bufs op).2.1 + (runOps bs (stepOp bs m bufs op).1 ops).2.1,
           (stepOp bs m bufs op).2.2 + (runOps bs (stepOp bs m bufs op).1 ops).2.2) := rfl
      rw [hb]
      obtain ⟨I1, I2⟩ := ih (stepOp bs m bufs op).1.1 (stepOp bs m bufs op).1.2 S1
      refine ⟨?_, ?_⟩
      · show WF bs (runOps bs (stepOp bs m bufs op).1 ops).1.1
          (runOps bs (stepOp bs m bufs op).1 ops).1.2
        convert I1 using 2
      · show bufLen (runOps bs (stepOp bs m bufs op).1 ops).1.2 +
            ((stepOp bs m bufs op).2.2 + (runOps bs (stepOp bs m bufs op).1 ops).2.2) =
          bufLen bufs +
            ((stepOp bs m bufs op).2.1 + (runOps bs (stepOp bs m bufs op).1 ops).2.1)
        have hI2 : bufLen (runOps bs (stepOp bs m bufs op).1 ops).1.2 +
            (runOps bs (stepOp bs m bufs op).1 ops).2.2 =
            bufLen (stepOp bs m bufs op).1.2 + (runOps bs (stepOp bs m bufs op).1 ops).2.1 := by
          convert I2 using 3
        omega

/-- Every chunk of the append loop's result is an original non-tail chunk, the
original tail (possibly with bytes appended: same block, same refcount cell), or
a freshly acquired chunk (no refcount cell, block allocated by this call). -/
theorem writeLoop_shape (bs : Nat) (fuel : Nat) :
    ∀ (m : Mem) (front : List DataChunk) (tl : DataChunk) (p : List Nat),
    ∀ cb ∈ (writeLoop bs fuel m front tl p).2,
      cb ∈ front ∨ (cb.blk = tl.blk ∧ cb.ref = tl.ref) ∨
      (cb.ref = none ∧ m.blocks.length ≤ cb.blk) := by
  induction fuel with
  | zero =>
      intro m front tl p cb hcb
      cases p with
      | nil =>
          simp only [writeLoop] at hcb
          rcases List.mem_append.1 hcb with h | h
          · exact Or.inl h
          · rw [List.mem_singleton.1 h]
            exact Or.inr (Or.inl ⟨rfl, rfl⟩)
      | cons a p0 =>
          simp only [writeLoop] at hcb
          rcases List.mem_append.1 hcb with h | h
          · exact Or.inl h
          · rw [List.mem_singleton.1 h]
            exact Or.inr (Or.inl ⟨rfl, rfl⟩)
  | succ f ih =>
      intro m front tl p cb hcb
      cases p with
      | nil =>
          simp only [writeLoop] at hcb
          rcases List.mem_append.1 hcb with h | h
          · exact Or.inl h
          · rw [List.mem_singleton.1 h]
            exact Or.inr (Or.inl ⟨rfl, rfl⟩)
      | cons a p0 =>
          by_cases hw : writableB m tl = true
          · rw [writeLoop_step_writable bs f m front tl a p0 hw] at hcb
            rcases ih _ front _ _ cb hcb with h | h | h
            · exact Or.inl h
            · exact Or.inr (Or.inl h)
            · right; right
              refine ⟨h.1, ?_⟩
              have := h.2
              rw [appendBytes_length] at this
              exact this
          · have hwf : writableB m tl = false := by
              rw [Bool.not_eq_true] at hw
              exact hw
            rw [writeLoop_step_append bs f m front tl a p0 hwf] at hcb
            rcases ih _ (front ++ [tl]) _ _ cb hcb with h | h | h
            · rcases List.mem_append.1 h with h1 | h1
              · exact Or.inl h1
              · rw [List.mem_singleton.1 h1]
                exact Or.inr (Or.inl ⟨rfl, rfl⟩)
            · right; right
              exact ⟨h.2, le_of_eq h.1.symm⟩
            · right; right
              refine ⟨h.1, ?_⟩
              have h2 := h.2
              have h3 : (newDataChunk bs m).1.blocks.length = m.blocks.length + 1 := by
                show (m.blocks ++ [List.replicate bs 0]).length = m.blocks.length + 1
                rw [List.length_append]
                rfl
              omega

/-- Every chunk of Buffer.Write's resulting list is an original chunk, a
Write-extended version of the original tail, or a fresh exclusively-owned chunk
whose block did not exist before the call. -/
theorem bufWrite_shape (bs : Nat) (m : Mem) (bufs : List DataChunk) (p : List Nat) :
    ∀ cb ∈ (bufWrite bs m bufs p).1.2,
      cb ∈ bufs ∨ (∃ tl ∈ bufs, cb.blk = tl.blk ∧ cb.ref = tl.ref) ∨
      (cb.ref = none ∧ m.blocks.length ≤ cb.blk) := by
  intro cb hcb
  cases hL : bufs.getLast? with
  | none =>
      rw [bufWrite_eq_none bs m bufs p hL] at hcb
      rcases writeLoop_shape bs (2 * p.length + 1) (newDataChunk bs m).1 []
          (newDataChunk bs m).2 p cb hcb with h | h | h
      · cases h
      · right; right
        refine ⟨?_, ?_⟩
        · rw [h.2]
          rfl
        · rw [h.1]
          exact le_of_eq rfl
      · right; right
        refine ⟨h.1, ?_⟩
        have h2 := h.2
        have h3 : (newDataChunk bs m).1.blocks.length = m.blocks.length + 1 := by
          show (m.blocks ++ [List.replicate bs 0]).length = m.blocks.length + 1
          rw [List.length_append]
          rfl
        omega
  | some tl =>
      have hne : bufs ≠ [] := by
        intro h
        rw [h] at hL
        cases hL
      have htl_eq : tl = bufs.getLast hne := by
        have h2 := List.getLast?_eq_getLast bufs hne
        rw [hL] at h2
        exact Option.some.inj h2
      rw [bufWrite_eq_some bs m bufs p tl hL] at hcb
      rcases writeLoop_shape bs (2 * p.length + 1) m bufs.dropLast tl p cb hcb with h | h | h
      · exact Or.inl (List.dropLast_sublist bufs |>.mem h)
      · exact Or.inr (Or.inl ⟨tl, htl_eq ▸ List.getLast_mem hne, h⟩)
      · exact Or.inr (Or.inr h)

theorem refOK_congr_refs {m m' : Mem} (c : DataChunk) (h : m'.refs = m.refs) :
    refOK m' c = refOK m c := by
  unfold refOK
  cases c.ref
  · rfl
  · rw [h]

theorem refOK_ref_eq {m : Mem} {c d : DataChunk} (h : c.ref = d.ref) :
    refOK m c = refOK m d := by
  unfold refOK
  rw [h]

theorem writableB_false_of_refOK {m : Mem} {c : DataChunk} (h : refOK m c = false) :
    writableB m c = false := by
  unfold writableB
  rw [h, Bool.and_false]

theorem cloneChunks_none_eq (m : Mem) (c : DataChunk) (rest : List DataChunk)
    (href : c.ref = none) :
    cloneChunks m (c :: rest) =
      ((cloneChunks { m with refs := m.refs ++ [2] } rest).1,
       { c with ref := some m.refs.length } ::
         (cloneChunks { m with refs := m.refs ++ [2] } rest).2) := by
  simp only [cloneChunks, href]

theorem cloneChunks_some_eq (m : Mem) (c : DataChunk) (rest : List DataChunk)
    (i : Nat) (href : c.ref = some i) :
    cloneChunks m (c :: rest) =
      ((cloneChunks { m with refs := m.refs.set i (m.refs.getD i 0 + 1) } rest).1,
       c :: (cloneChunks { m with refs := m.refs.set i (m.refs.getD i 0 + 1) } rest).2) := by
  simp only [cloneChunks, href]

/-- Buffer.Clone's per-chunk pass: block contents and the freed list are untouched,
refcount cells only grow, untouched cells keep their value, the chunk sequence
keeps its blocks and its byte content, stays well formed, and afterwards every
chunk holds a refcount cell with value at least 2. -/
theorem cloneChunks_spec (bs : Nat) : ∀ (bufs : List DataChunk) (m : Mem),
    (∀ c ∈ bufs, chunkWF bs m c) → refsLive m bufs →
    (cloneChunks m bufs).1.blocks = m.blocks ∧
    (cloneChunks m bufs).1.freed = m.freed ∧
    m.refs.length ≤ (cloneChunks m bufs).1.refs.length ∧
    (∀ j, m.refs.getD j 0 ≤ (cloneChunks m bufs).1.refs.getD j 0) ∧
    (∀ j, j < m.refs.length → (∀ c ∈ bufs, c.ref ≠ some j) →
      (cloneChunks m bufs).1.refs.getD j 0 = m.refs.getD j 0) ∧
    (cloneChunks m bufs).2.map (·.blk) = bufs.map (·.blk) ∧
    contents (cloneChunks m bufs).1 (cloneChunks m bufs).2 = contents m bufs ∧
    (∀ c ∈ (cloneChunks m bufs).2, chunkWF bs (cloneChunks m bufs).1 c) ∧
    (∀ c ∈ (cloneChunks m bufs).2, ∃ i, c.ref = some i ∧
      2 ≤ (cloneChunks m bufs).1.refs.getD i 0) := by
  intro bufs
  induction bufs with
  | nil =>
      intro m hall hlive
      exact ⟨rfl, rfl, le_refl _, fun j => le_refl _, fun j _ _ => rfl, rfl, rfl,
        (fun c hc => nomatch hc), (fun c hc => nomatch hc)⟩
  | cons c rest ih =>
      intro m hall hlive
      have hcwf := hall c (by simp)
      cases href : c.ref with
      | none =>
          have hfst : (cloneChunks m (c :: rest)).1 =
              (cloneChunks { m with refs := m.refs ++ [2] } rest).1 := by
            rw [cloneChunks_none_eq m c rest href]
          have hsnd : (cloneChunks m (c :: rest)).2 =
              { c with ref := some m.refs.length } ::
                (cloneChunks { m with refs := m.refs ++ [2] } rest).2 := by
            rw [cloneChunks_none_eq m c rest href]
          rw [hfst, hsnd]
          set mh : Mem := { m with refs := m.refs ++ [2] } with hmh
          have hrest : ∀ d ∈ rest, chunkWF bs mh d := by
            intro d hd
            obtain ⟨h1, h2, h3, h4⟩ := hall d (by simp [hd])
            refine ⟨h1, h2, h3, ?_⟩
            intro j hj
            have := h4 j hj
            show j < (m.refs ++ [2]).length
            rw [List.length_append]
            omega
          have hlive1 : refsLive mh rest := by
            intro d hd j hj
            have := hlive d (by simp [hd]) j hj
            have hjlt : j < m.refs.length := (hall d (by simp [hd])).2.2.2 j hj
            show 1 ≤ (m.refs ++ [2]).getD j 0
            rw [getD_append_left _ _ _ _ hjlt]
            exact this
          obtain ⟨I1, I2, I3, I4, I5, I6, I7, I8, I9⟩ := ih mh hrest hlive1
          have hmono : ∀ j, m.refs.getD j 0 ≤ mh.refs.getD j 0 := by
            intro j
            by_cases hj : j < m.refs.length
            · show m.refs.getD j 0 ≤ (m.refs ++ [2]).getD j 0
              rw [getD_append_left _ _ _ _ hj]
            · show m.refs.getD j 0 ≤ (m.refs ++ [2]).getD j 0
              rw [List.getD_eq_default _ _ (by omega)]
              omega
          have hlen1 : mh.refs.length = m.refs.length + 1 := by
            show (m.refs ++ [2]).length = m.refs.length + 1
            rw [List.length_append]
            rfl
          refine ⟨I1, I2, by omega, ?_, ?_, ?_, ?_, ?_, ?_⟩
          · intro j
            exact le_trans (hmono j) (I4 j)
          · intro j hj hnone
            have h5 := I5 j (by omega) (fun d hd => hnone d (by simp [hd]))
            have h6 : mh.refs.getD j 0 = m.refs.getD j 0 := by
              show (m.refs ++ [2]).getD j 0 = m.refs.getD j 0
              exact getD_append_left _ _ _ _ hj
            rw [h5, h6]
          · simp only [List.map_cons, I6]
          · rw [contents_cons, contents_cons, I7]
            have hv1 : chunkView (cloneChunks mh rest).1 { c with ref := some m.refs.length } =
                chunkView m c := by
              apply chunkView_congr
              rw [I1]
            have hv2 : contents mh rest = contents m rest := by
              apply contents_congr
              intro d hd
              apply chunkView_congr
              rfl
            rw [hv1, hv2]
          · intro d hd
            rcases List.mem_cons.1 hd with h | h
            · obtain ⟨h1, h2, h3, _⟩ := hcwf
              subst h
              refine ⟨?_, ?_, h3, ?_⟩
              · rw [I1]
                exact h1
              · rw [I1]
                exact h2
              · intro j hj
                simp only at hj
                cases hj
                omega
            · exact I8 d h
          · intro d hd
            rcases List.mem_cons.1 hd with h | h
            · subst h
              refine ⟨m.refs.length, rfl, ?_⟩
              have hv : mh.refs.getD m.refs.length 0 = 2 := by
                show (m.refs ++ [2]).getD m.refs.length 0 = 2
                exact getD_snoc_self _ _ _
              have := I4 m.refs.length
              omega
            · exact I9 d h
      | some i =>
          have hilt : i < m.refs.length := hcwf.2.2.2 i href
          have hival : 1 ≤ m.refs.getD i 0 := hlive c (by simp) i href
          have hfst : (cloneChunks m (c :: rest)).1 =
              (cloneChunks { m with refs := m.refs.set i (m.refs.getD i 0 + 1) } rest).1 := by
            rw [cloneChunks_some_eq m c rest i href]
          have hsnd : (cloneChunks m (c :: rest)).2 =
              c :: (cloneChunks { m with refs := m.refs.set i (m.refs.getD i 0 + 1) } rest).2 := by
            rw [cloneChunks_some_eq m c rest i href]
          rw [hfst, hsnd]
          set mh : Mem := { m with refs := m.refs.set i (m.refs.getD i 0 + 1) } with hmh
          have hmono : ∀ j, m.refs.getD j 0 ≤ mh.refs.getD j 0 := by
            intro j
            by_cases hj : j = i
            · subst hj
              show m.refs.getD j 0 ≤ (m.refs.set j (m.refs.getD j 0 + 1)).getD j 0
              rw [getD_set_self _ _ _ _ hilt]
              omega
            · show m.refs.getD j 0 ≤ (m.refs.set i (m.refs.getD i 0 + 1)).getD j 0
              rw [getD_set_ne _ _ _ _ _ (fun he => hj he.symm)]
          have hlen1 : mh.refs.length = m.refs.length := by
            show (m.refs.set i (m.refs.getD i 0 + 1)).length = m.refs.length
            exact List.length_set _ _ _
          have hrest : ∀ d ∈ rest, chunkWF bs mh d := by
            intro d hd
            obtain ⟨h1, h2, h3, h4⟩ := hall d (by simp [hd])
            refine ⟨h1, h2, h3, ?_⟩
            intro j hj
            rw [hlen1]
            exact h4 j hj
          have hlive1 : refsLive mh rest := by
            intro d hd j hj
            exact le_trans (hlive d (by simp [hd]) j hj) (hmono j)
          obtain ⟨I1, I2, I3, I4, I5, I6, I7, I8, I9⟩ := ih mh hrest hlive1
          refine ⟨I1, I2, by omega, ?_, ?_, ?_, ?_, ?_, ?_⟩
          · intro j
            exact le_trans (hmono j) (I4 j)
          · intro j hj hnone
            have hji : j ≠ i := by
              intro he
              exact hnone c (by simp) (by rw [href, he])
            have h5 := I5 j (by omega) (fun d hd => hnone d (by simp [hd]))
            have h6 : mh.refs.getD j 0 = m.refs.getD j 0 := by
              show (m.refs.set i (m.refs.getD i 0 + 1)).getD j 0 = m.refs.getD j 0
              exact getD_set_ne _ _ _ _ _ (fun he => hji he.symm)
            rw [h5, h6]
          · simp only [List.map_cons, I6]
          · rw [contents_cons, contents_cons, I7]
            have hv1 : chunkView (cloneChunks mh rest).1 c = chunkView m c := by
              apply chunkView_congr
              rw [I1]
            have hv2 : contents mh rest = contents m rest := by
              apply contents_congr
              intro d hd
              apply chunkView_congr
              rfl
            rw [hv1, hv2]
          · intro d hd
            rcases List.mem_cons.1 hd with h | h
            · obtain ⟨h1, h2, h3, h4⟩ := hcwf
              subst h
              refine ⟨?_, ?_, h3, ?_⟩
              · rw [I1]
                exact h1
              · rw [I1]
                exact h2
              · intro j hj
                rw [href] at hj
                cases hj
                have := I3
                omega
            · exact I8 d h
          · intro d hd
            rcases List.mem_cons.1 hd with h | h
            · subst h
              refine ⟨i, href, ?_⟩
              have hv : mh.refs.getD i 0 = m.refs.getD i 0 + 1 := by
                show (m.refs.set i (m.refs.getD i 0 + 1)).getD i 0 = m.refs.getD i 0 + 1
                exact getD_set_self _ _ _ _ hilt
              have := I4 i
              omega
            · exact I9 d h

/-- One Write against an owner that shares chunks with another owner (`cList`)
neither changes any byte the other owner can read nor creates a new writable
alias: separation is preserved. -/
theorem sepRef_bufWrite (bs : Nat) (hbs : 0 < bs) (m : Mem) (bList cList : List DataChunk)
    (p : List Nat) (hwf : WF bs m bList)
    (hcb : ∀ cc ∈ cList, cc.blk < m.blocks.length)
    (hsep : sepRef m bList cList) :
    contents (bufWrite bs m bList p).1.1 cList = contents m cList ∧
    WF bs (bufWrite bs m bList p).1.1 (bufWrite bs m bList p).1.2 ∧
    (∀ cc ∈ cList, cc.blk < (bufWrite bs m bList p).1.1.blocks.length) ∧
    sepRef (bufWrite bs m bList p).1.1 (bufWrite bs m bList p).1.2 cList := by
  obtain ⟨W1, W2, W3, W4, W5, W6, W7⟩ := bufWrite_spec bs hbs m bList p hwf
  refine ⟨?_, W2, ?_, ?_⟩
  · apply contents_congr
    intro cc hcc
    apply chunkView_congr
    apply W7 cc.blk (hcb cc hcc)
    intro hne
    by_cases hbk : cc.blk = (bList.getLast hne).blk
    · right
      apply writableB_false_of_refOK
      exact hsep (bList.getLast hne) (List.getLast_mem hne) cc hcc hbk.symm
    · left
      exact hbk
  · intro cc hcc
    have := hcb cc hcc
    omega
  · intro cb hcb2 cc hcc hbk
    rcases bufWrite_shape bs m bList p cb hcb2 with h | ⟨tl, htl, hblk, href⟩ | ⟨href, hge⟩
    · rw [refOK_congr_refs cb W3]
      exact hsep cb h cc hcc hbk
    · rw [refOK_congr_refs cb W3, refOK_ref_eq href]
      exact hsep tl htl cc hcc (hblk ▸ hbk)
    · exfalso
      have := hcb cc hcc
      omega

/-- Any sequence of Writes against one owner leaves the other owner's view intact
and preserves the separation invariant. -/
theorem sepRef_foldWrites (bs : Nat) (hbs : 0 < bs) (ps : List (List Nat)) :
    ∀ (m : Mem) (bList cList : List DataChunk),
    WF bs m bList → (∀ cc ∈ cList, cc.blk < m.blocks.length) → sepRef m bList cList →
    contents (foldWrites bs (m, bList) ps).1 cList = contents m cList ∧
    WF bs (foldWrites bs (m, bList) ps).1 (foldWrites bs (m, bList) ps).2 ∧
    (∀ cc ∈ cList, cc.blk < (foldWrites bs (m, bList) ps).1.blocks.length) ∧
    sepRef (foldWrites bs (m, bList) ps).1 (foldWrites bs (m, bList) ps).2 cList := by
  induction ps with
  | nil =>
      intro m bList cList hwf hcb hsep
      exact ⟨rfl, hwf, hcb, hsep⟩
  | cons p ps ih =>
      intro m bList cList hwf hcb hsep
      obtain ⟨S1, S2, S3, S4⟩ := sepRef_bufWrite bs hbs m bList cList p hwf hcb hsep
      have hb : foldWrites bs (m, bList) (p :: ps) =
          foldWrites bs ((bufWrite bs m bList p).1.1, (bufWrite bs m bList p).1.2) ps := by
        simp [foldWrites]
      rw [hb]
      obtain ⟨I1, I2, I3, I4⟩ :=
        ih (bufWrite bs m bList p).1.1 (bufWrite bs m bList p).1.2 cList S2 S3 S4
      exact ⟨by rw [I1, S1], I2, I3, I4⟩

theorem returnDataChunk_some_eq (M : Mem) (c : DataChunk) (i : Nat) (hc : c.ref = some i) :
    returnDataChunk M c =
      (if 0 < M.refs.getD i 0 - 1 then
        { M with refs := M.refs.set i (M.refs.getD i 0 - 1) }
       else
        { M with refs := M.refs.set i (M.refs.getD i 0 - 1), freed := M.freed ++ [c.blk] }) := by
  simp only [returnDataChunk, hc]

/-- Iterated releases of a chunk whose refcount cell holds `N`: each of the first
`N - 1` releases only decrements the counter and returns nothing to the pool;
the `N`-th release brings the counter to zero and returns the block exactly
once. -/
theorem releaseN_spec (m : Mem) (c : DataChunk) (i N : Nat)
    (hc : c.ref = some i) (hi : i < m.refs.length) (hN : m.refs.getD i 0 = N) :
    ∀ k, k ≤ N →
      (releaseN m c k).refs.getD i 0 = N - k ∧
      (releaseN m c k).refs.length = m.refs.length ∧
      (releaseN m c k).blocks = m.blocks ∧
      (k < N → (releaseN m c k).freed = m.freed) ∧
      (k = N → 1 ≤ N → (releaseN m c k).freed = m.freed ++ [c.blk]) := by
  intro k
  induction k with
  | zero =>
      intro _
      refine ⟨by rw [releaseN, hN]; omega, rfl, rfl, fun _ => rfl, ?_⟩
      intro hk h1
      omega
  | succ k ih =>
      intro hk
      obtain ⟨I1, I2, I3, I4, I5⟩ := ih (by omega)
      have hstep : releaseN m c (k + 1) = returnDataChunk (releaseN m c k) c := rfl
      have hiK : i < (releaseN m c k).refs.length := by
        rw [I2]
        exact hi
      rw [hstep, returnDataChunk_some_eq (releaseN m c k) c i hc, I1]
      by_cases hpos : 0 < N - k - 1
      · rw [if_pos hpos]
        refine ⟨?_, ?_, I3, ?_, ?_⟩
        · show ((releaseN m c k).refs.set i (N - k - 1)).getD i 0 = N - (k + 1)
          rw [getD_set_self _ _ _ _ hiK]
          omega
        · show ((releaseN m c k).refs.set i (N - k - 1)).length = m.refs.length
          rw [List.length_set]
          exact I2
        · intro _
          exact I4 (by omega)
        · intro he _
          omega
      · rw [if_neg hpos]
        have hkN : k + 1 = N := by omega
        refine ⟨?_, ?_, I3, ?_, ?_⟩
        · show ((releaseN m c k).refs.set i (N - k - 1)).getD i 0 = N - (k + 1)
          rw [getD_set_self _ _ _ _ hiK]
          omega
        · show ((releaseN m c k).refs.set i (N - k - 1)).length = m.refs.length
          rw [List.length_set]
          exact I2
        · intro h
          omega
        · intro _ _
          show (releaseN m c k).freed ++ [c.blk] = m.freed ++ [c.blk]
          rw [I4 (by omega)]

/-- C1: Chunking transparency — for every sequence of Write calls whose payloads
concatenate to a byte string of total length L, and every subsequent sequence of
Read calls whose destination lengths sum to at least L, the concatenation of the
bytes returned by the reads equals the concatenation of the bytes written, for
every (positive, per the public constructor) pool block size, write granularity,
and read granularity. -/
theorem chunking_transparency (bs : Nat) (ws : List (List Nat)) (ks : List Nat)
    (hbs : 0 < bs) (hsum : ws.flatten.length ≤ ks.sum) :
    (runReads (runWrites bs (initMem, []) ws) ks).2 = ws.flatten := by
  have hwf0 : WF bs initMem [] := ⟨(fun c hc => nomatch hc), List.nodup_nil⟩
  obtain ⟨W1, W2⟩ := runWrites_spec bs hbs ws initMem [] hwf0
  obtain ⟨R1, _, _⟩ := runReads_spec bs ks (runWrites bs (initMem, []) ws).1
    (runWrites bs (initMem, []) ws).2 W2
  have heta : ((runWrites bs (initMem, []) ws).1, (runWrites bs (initMem, []) ws).2) =
      runWrites bs (initMem, []) ws := rfl
  rw [heta] at R1
  rw [R1, W1, contents_nil, List.nil_append, List.take_of_length_le hsum]

theorem chunking_transparency_witness :
    0 < 2 ∧ ([[1], [2, 3, 4]] : List (List Nat)).flatten.length ≤ ([2, 3] : List Nat).sum ∧
    (runReads (runWrites 2 (initMem, []) [[1], [2, 3, 4]]) [2, 3]).2 =
      ([[1], [2, 3, 4]] : List (List Nat)).flatten :=
  ⟨by decide, by decide, chunking_transparency 2 [[1], [2, 3, 4]] [2, 3] (by decide) (by decide)⟩

/-- C2 (counterexample): reading with an empty destination from a buffer whose
chunk list is empty returns count 0 — the zero-length destination is completely
filled — yet reports end-of-data, contradicting the claim that Read returns no
error whenever the destination was completely filled. -/
theorem read_c2_counterexample :
    (bufRead initMem [] 0).cnt = 0 ∧ (bufRead initMem [] 0).eof = true := by
  decide

/-- C2 (amended): Read copies the first `min k len` content bytes, returns that
count, and reports end-of-data exactly when the chunk list is empty or the
buffer holds fewer than `k` bytes; hence for a nonempty destination the
original dichotomy holds: no error iff the destination was completely filled,
and reading from an empty buffer yields (0, end-of-data).  (In the source the
error value is literally either nil or io.EOF, which the `eof` flag models.) -/
theorem read_result_characterization (bs : Nat) (m : Mem) (bufs : List DataChunk) (k : Nat)
    (hwf : WF bs m bufs) :
    (bufRead m bufs k).out = (contents m bufs).take k ∧
    (bufRead m bufs k).cnt = min k (bufLen bufs) ∧
    ((bufRead m bufs k).eof = true ↔ (bufs = [] ∨ bufLen bufs < k)) ∧
    (1 ≤ k → ((bufRead m bufs k).eof = false ↔ (bufRead m bufs k).cnt = k)) ∧
    (bufLen bufs = 0 → 1 ≤ k → (bufRead m bufs k).cnt = 0 ∧ (bufRead m bufs k).eof = true) := by
  obtain ⟨R1, R2, R3, R4, R5, R6⟩ := bufRead_spec bs m bufs k hwf
  refine ⟨R1, R2, R6, ?_, ?_⟩
  · intro hk
    rw [Bool.eq_false_iff, Ne, R6, R2]
    constructor
    · intro h
      push_neg at h
      omega
    · intro h
      push_neg
      have hkL : k ≤ bufLen bufs := by omega
      refine ⟨?_, by omega⟩
      intro hnil
      rw [hnil] at hkL
      simp [bufLen] at hkL
      omega
  · intro hL hk
    rw [R2, R6]
    constructor
    · omega
    · right
      omega

theorem read_result_characterization_witness :
    WF 2 (⟨[[7, 8]], [], []⟩ : Mem) [⟨0, 0, 2, none⟩] ∧
    (bufRead ⟨[[7, 8]], [], []⟩ [⟨0, 0, 2, none⟩] 1).out = [7] ∧
    (bufRead ⟨[[7, 8]], [], []⟩ [⟨0, 0, 2, none⟩] 1).cnt = 1 ∧
    (bufRead ⟨[[7, 8]], [], []⟩ [⟨0, 0, 2, none⟩] 1).eof = false :=
  ⟨by decide,
   by
    obtain ⟨h1, h2, h3, -⟩ :=
      read_result_characterization 2 ⟨[[7, 8]], [], []⟩ [⟨0, 0, 2, none⟩] 1 (by decide)
    refine ⟨by rw [h1]; decide, by rw [h2]; decide, ?_⟩
    rw [Bool.eq_false_iff, Ne, h3]
    decide⟩

/-- C3: Write always succeeds — for every well-formed buffer state and input `p`
(and every positive block size, per the public constructor), Write returns
exactly `(len p, nil)` and the buffer's content grows by exactly `p`: no error
and no short count. -/
theorem write_always_succeeds (bs : Nat) (m : Mem) (bufs : List DataChunk) (p : List Nat)
    (hbs : 0 < bs) (hwf : WF bs m bufs) :
    (bufWrite bs m bufs p).2 = (p.length, none) ∧
    contents (bufWrite bs m bufs p).1.1 (bufWrite bs m bufs p).1.2 = contents m bufs ++ p := by
  obtain ⟨W1, _, _, _, _, W6, _⟩ := bufWrite_spec bs hbs m bufs p hwf
  exact ⟨W6, W1⟩

theorem write_always_succeeds_witness :
    0 < 2 ∧ WF 2 initMem [] ∧
    (bufWrite 2 initMem [] [1, 2, 3]).2 = (3, none) ∧
    contents (bufWrite 2 initMem [] [1, 2, 3]).1.1 (bufWrite 2 initMem [] [1, 2, 3]).1.2 =
      contents initMem [] ++ [1, 2, 3] :=
  ⟨by decide, by decide,
   (write_always_succeeds 2 initMem [] [1, 2, 3] (by decide) (by decide)).1,
   (write_always_succeeds 2 initMem [] [1, 2, 3] (by decide) (by decide)).2⟩

/-- C10: WriteString is Write — for every state and payload, WriteString computes
exactly the same result as Write (its body is a verbatim copy of Write's), so it
returns `(len s, nil)` and leaves the buffer in exactly the state Write would. -/
theorem writeString_write_equiv (bs : Nat) (m : Mem) (bufs : List DataChunk) (p : List Nat) :
    bufWriteString bs m bufs p = bufWrite bs m bufs p ∧
    (bufWriteString bs m bufs p).2 = (p.length, none) :=
  ⟨bufWriteString_eq_bufWrite bs m bufs p, rfl⟩

/-- C4: Length accounting — after every sequence of append operations (Write,
ReadFrom) and consume operations (Read, WriteTo, Bytes, Reset) run on a fresh
buffer, Len() equals total bytes appended minus total bytes consumed, and Len()
equals the number of unread bytes held across the chunks (the length of the
buffer's content). -/
theorem len_accounting (bs : Nat) (ops : List BufOp) (hbs : 0 < bs) :
    bufLen (runOps bs (initMem, []) ops).1.2 + (runOps bs (initMem, []) ops).2.2 =
      (runOps bs (initMem, []) ops).2.1 ∧
    bufLen (runOps bs (initMem, []) ops).1.2 =
      (contents (runOps bs (initMem, []) ops).1.1 (runOps bs (initMem, []) ops).1.2).length := by
  have hwf0 : WF bs initMem [] := ⟨(fun c hc => nomatch hc), List.nodup_nil⟩
  obtain ⟨W1, W2⟩ := runOps_spec bs hbs ops initMem [] hwf0
  refine ⟨?_, (contents_len_of_WF W1.1).symm⟩
  rw [W2]
  simp [bufLen]

theorem len_accounting_witness :
    0 < 2 ∧
    bufLen (runOps 2 (initMem, []) [BufOp.write [1, 2, 3], BufOp.read 2]).1.2 +
        (runOps 2 (initMem, []) [BufOp.write [1, 2, 3], BufOp.read 2]).2.2 =
      (runOps 2 (initMem, []) [BufOp.write [1, 2, 3], BufOp.read 2]).2.1 :=
  ⟨by decide, (len_accounting 2 [BufOp.write [1, 2, 3], BufOp.read 2] (by decide)).1⟩

/-- C5: Clone independence — Clone hands the original and the clone the very same
chunk list (so the two owners are symmetric), both read back exactly the
pre-clone content, and after any sequence of Writes applied to one owner the
other owner's readable byte sequence is still the pre-clone content: neither
can overwrite bytes the other can still see. -/
theorem clone_independence (bs : Nat) (m : Mem) (bufs : List DataChunk)
    (hbs : 0 < bs) (hwf : WF bs m bufs) (hlive : refsLive m bufs) :
    (bufClone m bufs).2.1 = (bufClone m bufs).2.2 ∧
    contents (bufClone m bufs).1 (bufClone m bufs).2.1 = contents m bufs ∧
    contents (bufClone m bufs).1 (bufClone m bufs).2.2 = contents m bufs ∧
    (∀ ps : List (List Nat),
      contents (foldWrites bs ((bufClone m bufs).1, (bufClone m bufs).2.1) ps).1
        (bufClone m bufs).2.2 = contents m bufs) := by
  obtain ⟨C1, C2, C3, C4, C5, C6, C7, C8, C9⟩ := cloneChunks_spec bs bufs m hwf.1 hlive
  have hb1 : (bufClone m bufs).1 = (cloneChunks m bufs).1 := rfl
  have hb2 : (bufClone m bufs).2.1 = (cloneChunks m bufs).2 := rfl
  have hb3 : (bufClone m bufs).2.2 = (cloneChunks m bufs).2 := rfl
  have hwfl : WF bs (cloneChunks m bufs).1 (cloneChunks m bufs).2 := by
    refine ⟨C8, ?_⟩
    rw [C6]
    exact hwf.2
  have hblt : ∀ cc ∈ (cloneChunks m bufs).2, cc.blk < (cloneChunks m bufs).1.blocks.length :=
    fun cc hcc => (C8 cc hcc).1
  have hsep : sepRef (cloneChunks m bufs).1 (cloneChunks m bufs).2 (cloneChunks m bufs).2 := by
    intro cb hcb cc hcc hbk
    obtain ⟨i, hi, h2⟩ := C9 cb hcb
    unfold refOK
    rw [hi]
    have : (cloneChunks m bufs).1.refs.getD i 0 ≠ 1 := by omega
    simpa using this
  refine ⟨rfl, by rw [hb1, hb2, C7], by rw [hb1, hb3, C7], ?_⟩
  intro ps
  obtain ⟨S1, _, _, _⟩ :=
    sepRef_foldWrites bs hbs ps (cloneChunks m bufs).1 (cloneChunks m bufs).2
      (cloneChunks m bufs).2 hwfl hblt hsep
  rw [hb1, hb2, hb3, S1, C7]

theorem clone_independence_witness :
    0 < 2 ∧ WF 2 (⟨[[7, 8]], [], []⟩ : Mem) [⟨0, 0, 2, none⟩] ∧
    refsLive ⟨[[7, 8]], [], []⟩ [⟨0, 0, 2, none⟩] ∧
    contents (foldWrites 2 ((bufClone ⟨[[7, 8]], [], []⟩ [⟨0, 0, 2, none⟩]).1,
        (bufClone ⟨[[7, 8]], [], []⟩ [⟨0, 0, 2, none⟩]).2.1) [[9, 9, 9]]).1
      (bufClone ⟨[[7, 8]], [], []⟩ [⟨0, 0, 2, none⟩]).2.2 = [7, 8] :=
  ⟨by decide, by decide, by decide,
   ((clone_independence 2 ⟨[[7, 8]], [], []⟩ [⟨0, 0, 2, none⟩] (by decide) (by decide)
      (by decide)).2.2.2 [[9, 9, 9]]).trans (by decide)⟩

/-- C7: Shared-chunk release — for a chunk whose shared counter holds N ≥ 2,
releasing it from one owner decrements the counter and returns nothing to the
pool; each of the first N−1 releases returns nothing, and the N-th release —
the last owner's — returns the block to the pool exactly once. -/
theorem shared_chunk_release (m : Mem) (c : DataChunk) (i N : Nat)
    (hc : c.ref = some i) (hi : i < m.refs.length) (hN : m.refs.getD i 0 = N)
    (h2 : 2 ≤ N) :
    ((returnDataChunk m c).freed = m.freed ∧
      (returnDataChunk m c).refs.getD i 0 = N - 1) ∧
    (∀ k, k < N → (releaseN m c k).freed = m.freed) ∧
    (releaseN m c N).freed = m.freed ++ [c.blk] ∧
    (releaseN m c N).refs.getD i 0 = 0 := by
  have h1 := releaseN_spec m c i N hc hi hN 1 (by omega)
  have hone : releaseN m c 1 = returnDataChunk m c := by
    show returnDataChunk (releaseN m c 0) c = returnDataChunk m c
    rfl
  refine ⟨⟨?_, ?_⟩, ?_, ?_, ?_⟩
  · rw [← hone]
    exact h1.2.2.2.1 (by omega)
  · rw [← hone]
    exact h1.1
  · intro k hk
    exact (releaseN_spec m c i N hc hi hN k (by omega)).2.2.2.1 hk
  · exact (releaseN_spec m c i N hc hi hN N (le_refl N)).2.2.2.2 rfl (by omega)
  · have := (releaseN_spec m c i N hc hi hN N (le_refl N)).1
    omega

theorem shared_chunk_release_witness :
    (⟨0, 0, 2, some 0⟩ : DataChunk).ref = some 0 ∧
    (0 : Nat) < (⟨[[5, 6]], [2], []⟩ : Mem).refs.length ∧
    (⟨[[5, 6]], [2], []⟩ : Mem).refs.getD 0 0 = 2 ∧
    (returnDataChunk ⟨[[5, 6]], [2], []⟩ ⟨0, 0, 2, some 0⟩).freed = [] ∧
    (releaseN ⟨[[5, 6]], [2], []⟩ ⟨0, 0, 2, some 0⟩ 2).freed = [] ++ [0] :=
  ⟨by decide, by decide, by decide,
   (shared_chunk_release ⟨[[5, 6]], [2], []⟩ ⟨0, 0, 2, some 0⟩ 0 2 rfl (by decide) (by decide)
      (by decide)).1.1,
   (shared_chunk_release ⟨[[5, 6]], [2], []⟩ ⟨0, 0, 2, some 0⟩ 0 2 rfl (by decide) (by decide)
      (by decide)).2.2.1⟩

/-- C6: Writability invariant — an append operation (Write, WriteString, ReadFrom)
mutates a pre-existing block only if that block belongs to the buffer's last
chunk, that chunk has free capacity (`off + len < bs`), and it passes the
exclusive-ownership test (refcount absent or equal to 1, hence not greater than
one); consequently a chunk whose share counter is 2 or more is never mutated by
any of these operations. -/
theorem writability_invariant (bs : Nat) (m : Mem) (bufs : List DataChunk)
    (hbs : 0 < bs) (hwf : WF bs m bufs) :
    (∀ (p : List Nat) (i : Nat), i < m.blocks.length →
      (bufWrite bs m bufs p).1.1.blocks.getD i [] ≠ m.blocks.getD i [] →
      ∃ h : bufs ≠ [],
        i = (bufs.getLast h).blk ∧
        (bufs.getLast h).off + (bufs.getLast h).len < bs ∧
        refOK m (bufs.getLast h) = true) ∧
    (∀ (p : List Nat) (i : Nat), i < m.blocks.length →
      (bufWriteString bs m bufs p).1.1.blocks.getD i [] ≠ m.blocks.getD i [] →
      ∃ h : bufs ≠ [],
        i = (bufs.getLast h).blk ∧
        (bufs.getLast h).off + (bufs.getLast h).len < bs ∧
        refOK m (bufs.getLast h) = true) ∧
    (∀ (s : RdScript) (i : Nat), i < m.blocks.length →
      (bufReadFrom bs m bufs s).1.1.blocks.getD i [] ≠ m.blocks.getD i [] →
      ∃ h : bufs ≠ [],
        i = (bufs.getLast h).blk ∧
        (bufs.getLast h).off + (bufs.getLast h).len < bs ∧
        refOK m (bufs.getLast h) = true) ∧
    (∀ c ∈ bufs, (∃ j, c.ref = some j ∧ 2 ≤ m.refs.getD j 0) →
      (∀ p : List Nat,
        (bufWrite bs m bufs p).1.1.blocks.getD c.blk [] = m.blocks.getD c.blk []) ∧
      (∀ p : List Nat,
        (bufWriteString bs m bufs p).1.1.blocks.getD c.blk [] = m.blocks.getD c.blk []) ∧
      (∀ s : RdScript,
        (bufReadFrom bs m bufs s).1.1.blocks.getD c.blk [] = m.blocks.getD c.blk [])) := by
  have hlast : ∀ h : bufs ≠ [], (m.blocks.getD (bufs.getLast h).blk []).length = bs :=
    fun h => (hwf.1 (bufs.getLast h) (List.getLast_mem h)).2.1
  have hwr : ∀ (p : List Nat) (i : Nat), i < m.blocks.length →
      (bufWrite bs m bufs p).1.1.blocks.getD i [] ≠ m.blocks.getD i [] →
      ∃ h : bufs ≠ [],
        i = (bufs.getLast h).blk ∧
        (bufs.getLast h).off + (bufs.getLast h).len < bs ∧
        refOK m (bufs.getLast h) = true := by
    intro p i hi hchg
    obtain ⟨-, -, -, -, -, -, W7⟩ := bufWrite_spec bs hbs m bufs p hwf
    by_cases hne : bufs = []
    · exfalso
      apply hchg
      apply W7 i hi
      intro h
      exact absurd hne h
    · refine ⟨hne, ?_⟩
      by_cases hblk : i = (bufs.getLast hne).blk
      · by_cases hwrt : writableB m (bufs.getLast hne) = true
        · have h2 := hwrt
          unfold writableB at h2
          rw [Bool.and_eq_true, decide_eq_true_eq] at h2
          refine ⟨hblk, ?_, h2.2⟩
          rw [← hlast hne]
          exact h2.1
        · exfalso
          apply hchg
          apply W7 i hi
          intro h
          right
          rw [Bool.not_eq_true] at hwrt
          exact hwrt
      · exfalso
        apply hchg
        apply W7 i hi
        intro h
        left
        exact hblk
  have hrf : ∀ (s : RdScript) (i : Nat), i < m.blocks.length →
      (bufReadFrom bs m bufs s).1.1.blocks.getD i [] ≠ m.blocks.getD i [] →
      ∃ h : bufs ≠ [],
        i = (bufs.getLast h).blk ∧
        (bufs.getLast h).off + (bufs.getLast h).len < bs ∧
        refOK m (bufs.getLast h) = true := by
    intro s i hi hchg
    obtain ⟨q, -, -, -, -, -, -, -, I8⟩ := bufReadFrom_spec bs m bufs s hwf
    by_cases hne : bufs = []
    · exfalso
      apply hchg
      apply I8 i hi
      intro h
      exact absurd hne h
    · refine ⟨hne, ?_⟩
      by_cases hblk : i = (bufs.getLast hne).blk
      · by_cases hwrt : writableB m (bufs.getLast hne) = true
        · have h2 := hwrt
          unfold writableB at h2
          rw [Bool.and_eq_true, decide_eq_true_eq] at h2
          refine ⟨hblk, ?_, h2.2⟩
          rw [← hlast hne]
          exact h2.1
        · exfalso
          apply hchg
          apply I8 i hi
          intro h
          right
          rw [Bool.not_eq_true] at hwrt
          exact hwrt
      · exfalso
        apply hchg
        apply I8 i hi
        intro h
        left
        exact hblk
  refine ⟨hwr, ?_, hrf, ?_⟩
  · intro p i hi hchg
    rw [bufWriteString_eq_bufWrite] at hchg
    exact hwr p i hi hchg
  · intro c hc ⟨j, hj, hj2⟩
    have hclt : c.blk < m.blocks.length := (hwf.1 c hc).1
    have hnotwr : ∀ h : bufs ≠ [], c.blk = (bufs.getLast h).blk →
        refOK m (bufs.getLast h) = false := by
      intro h hblk
      have hceq : c = bufs.getLast h :=
        List.inj_on_of_nodup_map hwf.2 hc (List.getLast_mem h) hblk
      rw [← hceq]
      unfold refOK
      rw [hj]
      have : m.refs.getD j 0 ≠ 1 := by omega
      simpa using this
    refine ⟨?_, ?_, ?_⟩
    · intro p
      by_contra hchg
      obtain ⟨h, hblk, -, hrefok⟩ := hwr p c.blk hclt hchg
      rw [hnotwr h hblk] at hrefok
      cases hrefok
    · intro p
      by_contra hchg
      rw [bufWriteString_eq_bufWrite] at hchg
      obtain ⟨h, hblk, -, hrefok⟩ := hwr p c.blk hclt hchg
      rw [hnotwr h hblk] at hrefok
      cases hrefok
    · intro s
      by_contra hchg
      obtain ⟨h, hblk, -, hrefok⟩ := hrf s c.blk hclt hchg
      rw [hnotwr h hblk] at hrefok
      cases hrefok

theorem writability_invariant_witness :
    0 < 2 ∧ WF 2 (⟨[[7, 8]], [], []⟩ : Mem) [⟨0, 0, 1, none⟩] ∧
    (∃ h : ([⟨0, 0, 1, none⟩] : List DataChunk) ≠ [],
      0 = (([⟨0, 0, 1, none⟩] : List DataChunk).getLast h).blk ∧
      (([⟨0, 0, 1, none⟩] : List DataChunk).getLast h).off +
          (([⟨0, 0, 1, none⟩] : List DataChunk).getLast h).len < 2 ∧
      refOK ⟨[[7, 8]], [], []⟩ (([⟨0, 0, 1, none⟩] : List DataChunk).getLast h) = true) :=
  ⟨by decide, by decide,
   (writability_invariant 2 ⟨[[7, 8]], [], []⟩ [⟨0, 0, 1, none⟩] (by decide) (by decide)).1
     [5] 0 (by decide) (by decide)⟩

/-- C8 (counterexample): a sink that accepts 1 of the front chunk's 2 bytes and
reports no error.  The claim says writeTo stops without calling the sink again;
the code loops: the drain makes a second sink call (call counter 2), consumes
both bytes and empties the buffer. -/
theorem writeTo_short_write_counterexample :
    bufWriteTo ⟨[[1, 2]], [], []⟩ [⟨0, 0, 2, none⟩] none [(1, none), (5, none)] =
      ((⟨[[1, 2]], [], [0]⟩, []), (2, none), 2) := by
  decide

/-- C8 (amended): when the sink accepts only part of the front chunk's data and
reports an error, writeTo trims the chunk to the unconsumed remainder and stops
after that single call, returning the bytes written so far with the sink's
error; when the sink accepts only part and reports no error, writeTo trims the
chunk and calls the sink again with the remainder (the loop only stops on a
sink error or an empty buffer; the io.Writer contract makes short writes come
with an error). -/
theorem writeTo_partial_accept_behavior (m : Mem) (c : DataChunk) (rest : List DataChunk)
    (a k acc : Nat) (s : WrScript) (ha : a < c.len) :
    writeToLoop m (c :: rest) ((a, some k) :: s) acc =
      (m, { c with off := c.off + a, len := c.len - a } :: rest, acc + a, some k, 1) ∧
    writeToLoop m (c :: rest) ((a, none) :: s) acc =
      ((writeToLoop m ({ c with off := c.off + a, len := c.len - a } :: rest) s (acc + a)).1,
       (writeToLoop m ({ c with off := c.off + a, len := c.len - a } :: rest) s (acc + a)).2.1,
       (writeToLoop m ({ c with off := c.off + a, len := c.len - a } :: rest) s (acc + a)).2.2.1,
       (writeToLoop m ({ c with off := c.off + a, len := c.len - a } :: rest) s (acc + a)).2.2.2.1,
       (writeToLoop m ({ c with off := c.off + a, len := c.len - a } :: rest) s (acc + a)).2.2.2.2 + 1) := by
  have hmin : min c.len a = a := Nat.min_eq_right (Nat.le_of_lt ha)
  have hdrop : dropConsumed m a (c :: rest) =
      (m, { c with off := c.off + a, len := c.len - a } :: rest) := by
    simp only [dropConsumed, if_neg (by omega : ¬ c.len ≤ a)]
  constructor
  · simp only [writeToLoop, hmin, hdrop]
  · simp only [writeToLoop, hmin, hdrop]

theorem writeTo_partial_accept_behavior_witness :
    (1 : Nat) < (⟨0, 0, 2, none⟩ : DataChunk).len ∧
    writeToLoop ⟨[[1, 2]], [], []⟩ [⟨0, 0, 2, none⟩] [(1, some 4)] 0 =
      (⟨[[1, 2]], [], []⟩, [⟨0, 1, 1, none⟩], 1, some 4, 1) :=
  ⟨by decide,
   ((writeTo_partial_accept_behavior ⟨[[1, 2]], [], []⟩ ⟨0, 0, 2, none⟩ [] 1 4 0 []
      (by decide)).1).trans (by decide)⟩

/-- C9: the vectored fast path does not propagate a writev failure.  With two
chunks queued and a vectored sink whose single writev call reports failure 7,
`tryToWritev` executes `return ret, err` with `err` the (nil) result of
`rc.Write` instead of the recorded `writevErr`, so the failure is reported as
success; WriteTo then falls through and calls the plain sink again — a retry —
and the caller observes only the plain sink's error 9, never 7.  This
contradicts the claim (and §4.4 of the spec, which the surrounding code plainly
intends: `writevErr` is computed and tested but not returned). -/
theorem writev_failure_suppressed :
    tryToWritev ⟨[[1, 2], [3, 4]], [], []⟩ [⟨0, 0, 2, none⟩, ⟨1, 0, 2, none⟩]
        (some [(0, some (WvErr.fail 7))]) =
      ((⟨[[1, 2], [3, 4]], [], []⟩, [⟨0, 0, 2, none⟩, ⟨1, 0, 2, none⟩]), 0, none) ∧
    bufWriteTo ⟨[[1, 2], [3, 4]], [], []⟩ [⟨0, 0, 2, none⟩, ⟨1, 0, 2, none⟩]
        (some [(0, some (WvErr.fail 7))]) [(10, some 9)] =
      ((⟨[[1, 2], [3, 4]], [], [0]⟩, [⟨1, 0, 2, none⟩]), (2, some 9), 1) := by
  constructor
  · decide
  · decide
